import Mathlib

/-
Verification of the calcnum numbers-game search engine (src/main.cpp).

Shallow embedding conventions:
* C++ double is modelled as the exact rationals ℚ.  All inputs in the
  repository are small integers and the claims under study are structural;
  where the two could diverge (division by zero inside the inverse-solve
  helpers, where IEEE doubles give inf/nan silently) the theorems carry
  explicit nonzero side conditions so that both semantics agree.
* C++ exceptions are modelled with Except: DivisionByZeroException,
  OpenNodeEvalException and RequiredLiteralNodeException become the three
  constructors of Err.  A catch block corresponds to a match on the error.
* std::set<double> is modelled as a List ℚ that is kept sorted and
  duplicate-free by construction (numbersSet below mirrors set insertion);
  iteration order of the C++ set is the list order.  Memo-table keys
  (set<double> compared by element equality) are modelled as Finset ℚ.
* The recursive searches are given explicit fuel so that every definition
  is structurally recursive and kernel-computable; fuel exhaustion returns
  none, and a result of some r means the C++ run finishes with r.
* fill_left threads a done flag through the tree exactly as the C++ code
  does; the left operand is filled before the right one, matching the
  documented "replace the left most open node" semantics.
-/

namespace Calcnum

/-- The four operator strategy types Add, Sub, Mul, Div (main.cpp 134-197). -/
inductive BinOp where
  | add
  | sub
  | mul
  | div
deriving DecidableEq, Repr

/-- The exceptions of main.cpp 18-34. -/
inductive Err where
  | divByZero
  | openNodeEval
  | requiredLiteralNode
deriving DecidableEq, Repr

/-- Expression trees (main.cpp 41-332): an open hole, a literal, or a
binary operator node with two children. -/
inductive Expr where
  | Open : Expr
  | Lit : ℚ → Expr
  | Op : BinOp → Expr → Expr → Expr
deriving DecidableEq, Repr

/-
Mathlib marks the arithmetic operations of ℚ irreducible, which blocks
kernel evaluation of concrete runs.  The helpers below compute the same
rational values through the reducible smart constructor Rat.divInt; the
qAdd_eq family proves them equal to the ordinary field operations, and
every later proof immediately rewrites with those equations, so the
model is the ordinary arithmetic of ℚ.
-/

/-- Addition on ℚ through Rat.divInt (provably equal to + by qAdd_eq). -/
def qAdd (a b : ℚ) : ℚ := Rat.divInt (a.num * b.den + b.num * a.den) (a.den * b.den)

/-- Subtraction on ℚ through Rat.divInt (equal to -, see qSub_eq). -/
def qSub (a b : ℚ) : ℚ := Rat.divInt (a.num * b.den - b.num * a.den) (a.den * b.den)

/-- Multiplication on ℚ through Rat.divInt (equal to *, see qMul_eq). -/
def qMul (a b : ℚ) : ℚ := Rat.divInt (a.num * b.num) (a.den * b.den)

/-- Division on ℚ through Rat.divInt (equal to /, see qDiv_eq). -/
def qDiv (a b : ℚ) : ℚ := Rat.divInt (a.num * b.den) (a.den * b.num)

/-- Absolute value on ℚ (equal to |·|, see qAbs_eq). -/
def qAbs (a : ℚ) : ℚ := if a < 0 then Rat.divInt (-a.num) a.den else a

/-- Forward evaluation of one operator (Add/Sub/Mul/Div::eval,
main.cpp 137, 153, 169, 185): division by a zero right operand signals
DivisionByZero. -/
def opEval (c : BinOp) (a b : ℚ) : Except Err ℚ :=
  match c with
  | .add => .ok (qAdd a b)
  | .sub => .ok (qSub a b)
  | .mul => .ok (qMul a b)
  | .div => if b = 0 then .error .divByZero else .ok (qDiv a b)

/-- solve_right of each operator (main.cpp 141, 157, 173, 190): the value
the right child must take for the node to evaluate to target given lhs. -/
def solveRight (c : BinOp) (target lhs : ℚ) : ℚ :=
  match c with
  | .add => qSub target lhs
  | .sub => qSub lhs target
  | .mul => qDiv target lhs
  | .div => qDiv lhs target

/-- solve_left of each operator (main.cpp 145, 161, 177, 194). -/
def solveLeft (c : BinOp) (target rhs : ℚ) : ℚ :=
  match c with
  | .add => qSub target rhs
  | .sub => qAdd target rhs
  | .mul => qDiv target rhs
  | .div => qMul target rhs

/-- evaluable (main.cpp 78, 206, 289): true iff no reachable Open node. -/
def evaluable : Expr → Bool
  | .Open => false
  | .Lit _ => true
  | .Op _ l r => evaluable l && evaluable r

/-- evaluate (main.cpp 82, 210, 293): fails with OpenNodeEval on a hole,
with DivisionByZero on a zero divisor. -/
def eval : Expr → Except Err ℚ
  | .Open => .error .openNodeEval
  | .Lit v => .ok v
  | .Op c l r => do
    let a ← eval l
    let b ← eval r
    opEval c a b

/-- size (main.cpp 86, 214, 297): the number of reachable Open nodes. -/
def size : Expr → Nat
  | .Open => 1
  | .Lit _ => 0
  | .Op _ l r => size l + size r

/-- fill_left with the done flag threaded through (main.cpp 90, 218, 301):
replaces the leftmost Open node with the replacement, sharing the rest. -/
def fillAux : Expr → Expr → Bool → Expr × Bool
  | .Open, repl, done => if done then (.Open, done) else (repl, true)
  | .Lit v, _, done => (.Lit v, done)
  | .Op c l r, repl, done =>
    let pl := fillAux l repl done
    let pr := fillAux r repl pl.2
    (.Op c pl.1 pr.1, pr.2)

/-- clone_and_fill (main.cpp 69-72). -/
def cloneAndFill (root repl : Expr) : Expr :=
  (fillAux root repl false).1

/-- required (main.cpp 103, 222, 305): assuming one open node, the value
that hole must take for the tree to evaluate to target; a Lit raises
RequiredLiteralNode. -/
def required : Expr → ℚ → Except Err ℚ
  | .Open, target => .ok target
  | .Lit _, _ => .error .requiredLiteralNode
  | .Op c l r, target =>
    if evaluable l then do
      let lv ← eval l
      required r (solveRight c target lv)
    else do
      let rv ← eval r
      required l (solveLeft c target rv)

/-- The multiset of literal values in a tree (auxiliary for the proofs;
the C++ code only ever materialises the deduplicated set, see litFinset). -/
def lits : Expr → Multiset ℚ
  | .Open => 0
  | .Lit v => {v}
  | .Op _ l r => lits l + lits r

/-- numbers (main.cpp 107, 231, 309): the set of literal values in a tree,
used as memo-table key. -/
def litFinset : Expr → Finset ℚ
  | .Open => ∅
  | .Lit v => {v}
  | .Op _ l r => litFinset l ∪ litFinset r

/-- is_open (main.cpp 111, 240, 313): true iff the tree consists solely of
Open nodes and operator nodes (no literal anywhere). -/
def isOpenT : Expr → Bool
  | .Open => true
  | .Lit _ => false
  | .Op _ l r => isOpenT l && isOpenT r

/-- evaluate_missing (main.cpp 115, 244, 317): the heuristic value of a
partially built tree; an operator node keeps only the side that is not
fully open and yields the neutral 0 when both sides contain a literal. -/
def evaluateMissing : Expr → ℚ
  | .Open => 0
  | .Lit v => v
  | .Op _ l r =>
    if isOpenT l then evaluateMissing r
    else if isOpenT r then evaluateMissing l
    else 0

/-- Truncation of a rational toward zero, modelling the C++ conversion of
a double to int: with the denominator positive, truncating division of
the numerator by the denominator is exactly truncation toward zero. -/
def truncQ (q : ℚ) : ℤ :=
  Int.tdiv q.num q.den

/-- The operator display character as a string (repr fields, main.cpp
135, 151, 167, 183). -/
def opRepr (c : BinOp) : String :=
  match c with
  | .add => "+"
  | .sub => "-"
  | .mul => "*"
  | .div => "/"

/-- order (main.cpp 120, 254, 321): the canonical key string of a node;
a literal prints its value truncated to int, an operator its symbol, a
hole the letter o. -/
def orderKey : Expr → String
  | .Open => "o"
  | .Lit v => toString (truncQ v)
  | .Op c _ _ => opRepr c

/-- sorted (main.cpp 124, 258-268, 275-280, 325): canonical-form check.
The generic operator version compares the child keys with strict < for
the commutative symbols; the Op Add template specialization at main.cpp
275-280 overrides this and only requires the children to be sorted,
performing no key comparison at all. -/
def sorted : Expr → Bool
  | .Open => true
  | .Lit _ => true
  | .Op c l r =>
    match c with
    | .add => sorted l && sorted r
    | .mul => sorted l && sorted r && decide (orderKey l < orderKey r)
    | .sub => sorted l && sorted r
    | .div => sorted l && sorted r

/-- The best candidate (main.cpp 339-351): a tree and its value. -/
structure Best where
  expr : Expr
  value : ℚ
deriving DecidableEq, Repr

deriving instance DecidableEq for Except

/-- The default Best (main.cpp 343): a bare Open tree with value 0. -/
def defaultBest : Best := ⟨.Open, 0⟩

/-- The Best(expr) constructor (main.cpp 344-350): evaluates the tree,
catching only DivisionByZero (value becomes 0); any other exception
propagates out of the constructor. -/
def mkBest (e : Expr) : Except Err Best :=
  match eval e with
  | .ok v => .ok ⟨e, v⟩
  | .error .divByZero => .ok ⟨e, 0⟩
  | .error er => .error er

/-- better (main.cpp 353-355): strictly smaller absolute distance to the
target.  The C++ target parameter is an int, so callers that hold a
double target implicitly truncate it. -/
def better (l r : Best) (target : ℤ) : Bool :=
  decide (qAbs (qSub l.value (target : ℚ)) < qAbs (qSub r.value (target : ℚ)))

/-
The searches.  Each returns, besides the Best, the trace of candidate
values in construction order: one entry for every execution of the
Best(expr) constructor on a concrete tree (candidate scoring); the
default constructor Best() is not a candidate construction.  The Option
layer is fuel (none = out of fuel), the Except layer is an uncaught
exception escaping the search.
-/

/-- Result of a complete search call: fuel / uncaught exception /
(best, trace of constructed candidate values). -/
abbrev DfsRes := Option (Except Err (Best × List ℚ))

/-- Result of a partially run branching loop: the Bool records whether
the loop returned early through the lucky stop. -/
abbrev StepRes := Option (Except Err (Bool × Best × List ℚ))

/-- The number loop of dfs (main.cpp 377-385): for each remaining number
in set order, recurse with the number substituted into the leftmost hole
and erased from the multiset copy, keep the better result, and return
early the instant the best value equals the target. -/
def dfsLoopNums (child : Expr → List ℚ → Best → DfsRes) (t : ℚ) (e : Expr)
    (full : List ℚ) : List ℚ → Best → StepRes
  | [], best => some (.ok (false, best, []))
  | n :: rest, best =>
    match child (cloneAndFill e (.Lit n)) (full.erase n) best with
    | none => none
    | some (.error er) => some (.error er)
    | some (.ok (opt, tr1)) =>
      let best1 := if better opt best (truncQ t) then opt else best
      if best1.value = t then some (.ok (true, best1, tr1))
      else
        match dfsLoopNums child t e full rest best1 with
        | none => none
        | some (.error er) => some (.error er)
        | some (.ok (fl, b2, tr2)) => some (.ok (fl, b2, tr1 ++ tr2))

/-- The operator branch of dfs (main.cpp 387-400): substitute a fresh
binary node with two holes for each operator, with the same keep-better
and lucky-stop discipline. -/
def dfsLoopOps (child : Expr → List ℚ → Best → DfsRes) (t : ℚ) (e : Expr)
    (ns : List ℚ) : List BinOp → Best → StepRes
  | [], best => some (.ok (false, best, []))
  | c :: rest, best =>
    match child (cloneAndFill e (.Op c .Open .Open)) ns best with
    | none => none
    | some (.error er) => some (.error er)
    | some (.ok (opt, tr1)) =>
      let best1 := if better opt best (truncQ t) then opt else best
      if best1.value = t then some (.ok (true, best1, tr1))
      else
        match dfsLoopOps child t e ns rest best1 with
        | none => none
        | some (.error er) => some (.error er)
        | some (.ok (fl, b2, tr2)) => some (.ok (fl, b2, tr1 ++ tr2))

/-- dfs (main.cpp 368-404): exhaustive depth-first enumeration.  A leaf
(no numbers left, evaluable tree) is scored against the running best;
otherwise, with numbers remaining and a hole present, the number loop
runs and then, if the open-node count is below the remaining count, the
operator loop; all other states fall through to the unchanged best. -/
def dfsT : Nat → Expr → ℚ → List ℚ → Best → DfsRes
  | 0, _, _, _, _ => none
  | fuel + 1, e, t, ns, best =>
    if ns.isEmpty && evaluable e then
      match mkBest e with
      | .error er => some (.error er)
      | .ok cur =>
        some (.ok (if better cur best (truncQ t) then cur else best, [cur.value]))
    else if !ns.isEmpty && !evaluable e then
      match dfsLoopNums (fun e2 ns2 b2 => dfsT fuel e2 t ns2 b2) t e ns ns best with
      | none => none
      | some (.error er) => some (.error er)
      | some (.ok (ret, b1, tr1)) =>
        if ret then some (.ok (b1, tr1))
        else if size e < ns.length then
          match dfsLoopOps (fun e2 ns2 b2 => dfsT fuel e2 t ns2 b2) t e ns [.add, .sub, .mul, .div] b1 with
          | none => none
          | some (.error er) => some (.error er)
          | some (.ok (_, b2, tr2)) => some (.ok (b2, tr1 ++ tr2))
        else some (.ok (b1, tr1))
    else some (.ok (best, []))

/-
The memo table (main.cpp 411: map<set<double>, map<double, shared_ptr<Expr>>>):
a mapping from the deduplicated set of consumed numbers to a mapping from
achieved value to the expression achieving it.
-/

/-- The memo table, as a total lookup function. -/
abbrev Mem := Finset ℚ → ℚ → Option Expr

/-- An empty memo table. -/
def memEmpty : Mem := fun _ _ => none

/-- mem[key][outcome] = expr: insertion or overwrite. -/
def memInsert (m : Mem) (k : Finset ℚ) (v : ℚ) (e : Expr) : Mem :=
  fun k2 v2 => if k2 = k ∧ v2 = v then some e else m k2 v2

/-- The memo probe shared by dfs_mem (main.cpp 427-436) and astar
(main.cpp 529-539): compute the required value of the single hole, look
it up under the remaining-numbers key, and splice the cached subtree in
on a hit; DivisionByZero during the computation only skips the probe. -/
def probeStep (t : ℚ) (e : Expr) (ns : List ℚ) (mem : Mem) : Except Err (Option Best) :=
  match required e t with
  | .ok r =>
    match mem ns.toFinset r with
    | some sub => (mkBest (cloneAndFill e sub)).map some
    | none => .ok none
  | .error .divByZero => .ok none
  | .error er => .error er

/-- Result of a complete dfs_mem call. -/
abbrev MemRes := Option (Except Err (Best × Mem × List ℚ))

/-- Result of a partially run dfs_mem branching loop. -/
abbrev StepMemRes := Option (Except Err (Bool × Best × Mem × List ℚ))

/-- The number loop of dfs_mem (main.cpp 438-446), threading the memo
table through the recursive calls. -/
def dfsMemLoopNums (child : Expr → List ℚ → Best → Mem → MemRes) (t : ℚ) (e : Expr)
    (full : List ℚ) : List ℚ → Best → Mem → StepMemRes
  | [], best, mem => some (.ok (false, best, mem, []))
  | n :: rest, best, mem =>
    match child (cloneAndFill e (.Lit n)) (full.erase n) best mem with
    | none => none
    | some (.error er) => some (.error er)
    | some (.ok (opt, mem1, tr1)) =>
      let best1 := if better opt best (truncQ t) then opt else best
      if best1.value = t then some (.ok (true, best1, mem1, tr1))
      else
        match dfsMemLoopNums child t e full rest best1 mem1 with
        | none => none
        | some (.error er) => some (.error er)
        | some (.ok (fl, b2, m2, tr2)) => some (.ok (fl, b2, m2, tr1 ++ tr2))

/-- The operator branch of dfs_mem (main.cpp 448-461). -/
def dfsMemLoopOps (child : Expr → List ℚ → Best → Mem → MemRes) (t : ℚ) (e : Expr)
    (ns : List ℚ) : List BinOp → Best → Mem → StepMemRes
  | [], best, mem => some (.ok (false, best, mem, []))
  | c :: rest, best, mem =>
    match child (cloneAndFill e (.Op c .Open .Open)) ns best mem with
    | none => none
    | some (.error er) => some (.error er)
    | some (.ok (opt, mem1, tr1)) =>
      let best1 := if better opt best (truncQ t) then opt else best
      if best1.value = t then some (.ok (true, best1, mem1, tr1))
      else
        match dfsMemLoopOps child t e ns rest best1 mem1 with
        | none => none
        | some (.error er) => some (.error er)
        | some (.ok (fl, b2, m2, tr2)) => some (.ok (fl, b2, m2, tr1 ++ tr2))

/-- dfs_mem (main.cpp 411-465): exhaustive depth-first enumeration with
the memo table.  A fully evaluable tree with numbers still remaining is
recorded under its consumed-numbers set (DivisionByZero skips just the
insertion); with exactly one hole the memo probe may splice in a cached
subtree and return it immediately. -/
def dfsMemT : Nat → Expr → ℚ → List ℚ → Best → Mem → MemRes
  | 0, _, _, _, _, _ => none
  | fuel + 1, e, t, ns, best, mem =>
    if ns.isEmpty && evaluable e then
      match mkBest e with
      | .error er => some (.error er)
      | .ok cur =>
        some (.ok (if better cur best (truncQ t) then cur else best, mem, [cur.value]))
    else if !ns.isEmpty && evaluable e then
      match eval e with
      | .ok outcome => some (.ok (best, memInsert mem (litFinset e) outcome e, []))
      | .error .divByZero => some (.ok (best, mem, []))
      | .error er => some (.error er)
    else if !ns.isEmpty && !evaluable e then
      match (if size e == 1 then probeStep t e ns mem else .ok none) with
      | .error er => some (.error er)
      | .ok (some b) => some (.ok (b, mem, [b.value]))
      | .ok none =>
        match dfsMemLoopNums (fun e2 ns2 b2 m2 => dfsMemT fuel e2 t ns2 b2 m2) t e ns ns best mem with
        | none => none
        | some (.error er) => some (.error er)
        | some (.ok (ret, b1, m1, tr1)) =>
          if ret then some (.ok (b1, m1, tr1))
          else if size e < ns.length then
            match dfsMemLoopOps (fun e2 ns2 b2 m2 => dfsMemT fuel e2 t ns2 b2 m2) t e ns [.add, .sub, .mul, .div] b1 m1 with
            | none => none
            | some (.error er) => some (.error er)
            | some (.ok (_, b2, m2, tr2)) => some (.ok (b2, m2, tr1 ++ tr2))
          else some (.ok (b1, m1, tr1))
    else some (.ok (best, mem, []))

/-
The informed best-first search (main.cpp 471-567).
-/

/-- A frontier entry (main.cpp 471-477): tree, heuristic score, remaining
numbers. -/
structure Node where
  expr : Expr
  dist : ℚ
  numbers : List ℚ
deriving DecidableEq, Repr

/-- The priority frontier, as the list of entries in insertion order. -/
abbrev Queue := List Node

/-- Popping the frontier: the C++ priority_queue with the comparison of
main.cpp 479-481 delivers an entry of minimal dist; ties between equal
scores are broken here in favour of the earliest inserted entry (the
C++ binary heap leaves the tie order unspecified). -/
def popMin : Queue → Option (Node × Queue)
  | [] => none
  | x :: xs =>
    match popMin xs with
    | none => some (x, [])
    | some (y, rest) => if x.dist ≤ y.dist then some (x, xs) else some (y, x :: rest)

/-- emplace (main.cpp 483-513): an evaluable tree with no numbers left is
scored against the best (and, under use_mem, an evaluable tree is recorded
in the memo table, DivisionByZero skipping the insertion); a tree with
holes is pushed to the frontier, under use_uniq_queue only when sorted. -/
def emplaceM (e : Expr) (t : ℤ) (ns : List ℚ) (q : Queue) (h : Expr → ℚ) (best : Best)
    (mem : Mem) (useMem useUniq : Bool) : Except Err (Queue × Best × Mem × List ℚ) :=
  if evaluable e then
    match (if ns.isEmpty then (mkBest e).map some else .ok none) with
    | .error er => .error er
    | .ok scored =>
      let best1 := match scored with
        | some opt => if better opt best t then opt else best
        | none => best
      let tr := match scored with
        | some opt => [opt.value]
        | none => []
      if useMem then
        match eval e with
        | .ok v => .ok (q, best1, memInsert mem (litFinset e) v e, tr)
        | .error .divByZero => .ok (q, best1, mem, tr)
        | .error er => .error er
      else .ok (q, best1, mem, tr)
  else
    if useUniq then
      if sorted e then .ok (q ++ [⟨e, h e, ns⟩], best, mem, [])
      else .ok (q, best, mem, [])
    else .ok (q ++ [⟨e, h e, ns⟩], best, mem, [])

/-- The child expansion over the remaining numbers (main.cpp 542-549). -/
def expandNums (t : ℤ) (cur : Node) (h : Expr → ℚ) (um uu : Bool) :
    List ℚ → Queue → Best → Mem → Except Err (Queue × Best × Mem × List ℚ)
  | [], q, best, mem => .ok (q, best, mem, [])
  | n :: rest, q, best, mem =>
    match emplaceM (cloneAndFill cur.expr (.Lit n)) t (cur.numbers.erase n) q h best mem um uu with
    | .error er => .error er
    | .ok (q1, b1, m1, tr1) =>
      match expandNums t cur h um uu rest q1 b1 m1 with
      | .error er => .error er
      | .ok (q2, b2, m2, tr2) => .ok (q2, b2, m2, tr1 ++ tr2)

/-- The child expansion over the four operators (main.cpp 551-563). -/
def expandOps (t : ℤ) (cur : Node) (h : Expr → ℚ) (um uu : Bool) :
    List BinOp → Queue → Best → Mem → Except Err (Queue × Best × Mem × List ℚ)
  | [], q, best, mem => .ok (q, best, mem, [])
  | c :: rest, q, best, mem =>
    match emplaceM (cloneAndFill cur.expr (.Op c .Open .Open)) t cur.numbers q h best mem um uu with
    | .error er => .error er
    | .ok (q1, b1, m1, tr1) =>
      match expandOps t cur h um uu rest q1 b1 m1 with
      | .error er => .error er
      | .ok (q2, b2, m2, tr2) => .ok (q2, b2, m2, tr1 ++ tr2)

/-- The astar main loop (main.cpp 525-564): while the frontier is
nonempty and the best value differs from the target, pop a node, run the
memo probe when enabled and the node has one hole (a hit returns its
candidate immediately), then expand the remaining numbers and, if
headroom remains, the four operators. -/
def astarLoop (t : ℤ) (h : Expr → ℚ) (um uu : Bool) : Nat → Queue → Best → Mem → DfsRes
  | 0, _, _, _ => none
  | fuel + 1, q, best, mem =>
    if q = [] ∨ best.value = (t : ℚ) then some (.ok (best, []))
    else
      match popMin q with
      | none => some (.ok (best, []))
      | some (cur, q1) =>
        match (if um && size cur.expr == 1 then probeStep (t : ℚ) cur.expr cur.numbers mem
               else .ok none) with
        | .error er => some (.error er)
        | .ok (some b) => some (.ok (b, [b.value]))
        | .ok none =>
          match expandNums t cur h um uu cur.numbers q1 best mem with
          | .error er => some (.error er)
          | .ok (q2, b2, m2, tr2) =>
            match (if size cur.expr < cur.numbers.length then
                     expandOps t cur h um uu [.add, .sub, .mul, .div] q2 b2 m2
                   else .ok (q2, b2, m2, [])) with
            | .error er => some (.error er)
            | .ok (q3, b3, m3, tr3) =>
              match astarLoop t h um uu fuel q3 b3 m3 with
              | none => none
              | some (.error er) => some (.error er)
              | some (.ok (bf, trf)) => some (.ok (bf, tr2 ++ tr3 ++ trf))

/-- astar (main.cpp 515-567): start from a default best and a frontier
holding the bare Open root, then run the loop. -/
def astarT (fuel : Nat) (t : ℤ) (ns : List ℚ) (h : Expr → ℚ) (um uu : Bool) : DfsRes :=
  astarLoop t h um uu fuel [⟨.Open, h .Open, ns⟩] defaultBest memEmpty

/-- Insertion into a sorted duplicate-free list, mirroring std::set
insertion (an equal element is ignored). -/
def insertUnique (x : ℚ) : List ℚ → List ℚ
  | [] => [x]
  | y :: ys => if x < y then x :: y :: ys else if x = y then y :: ys else y :: insertUnique x ys

/-- Construction of a std::set<double> from an initializer list, as the
driver does (main.cpp 651-658): inserting each element in turn collapses
duplicates. -/
def numbersSet (l : List ℚ) : List ℚ := l.foldl (fun acc x => insertUnique x acc) []

/-- The pruned tree whose plain evaluation coincides with
evaluateMissing: drop the fully open side of an operator node, collapse a
bare hole and an operator node with literals on both sides to the neutral
literal 0. -/
def pruneMissing : Expr → Expr
  | .Open => .Lit 0
  | .Lit v => .Lit v
  | .Op _ l r =>
    if isOpenT l then pruneMissing r
    else if isOpenT r then pruneMissing l
    else .Lit 0

/-- Every hole replaced by the neutral literal 0, the tree otherwise
unchanged. -/
def replaceHolesZero : Expr → Expr
  | .Open => .Lit 0
  | .Lit v => .Lit v
  | .Op c l r => .Op c (replaceHolesZero l) (replaceHolesZero r)

/-- Modelled from the spec: evaluateIgnoringHoles read as "evaluate
treating any hole subtree as contributing a neutral placeholder value",
i.e. ordinary evaluation after replacing every hole by the literal 0.
Defined from the words of the spec for comparison with the
evaluate_missing of the code. -/
def specHoleNeutralEval (e : Expr) : Except Err ℚ :=
  eval (replaceHolesZero e)

/-- The side conditions under which the inverse-solve chain of required
really inverts evaluation: every evaluation on the way succeeds, every
Mul node on the hole path has a nonzero sibling value, a Div node with
the hole on the right additionally needs a nonzero incoming sub-target,
and a Div node with the hole on the left a nonzero right sibling. -/
def reqSafe : Expr → ℚ → Bool
  | .Open, _ => true
  | .Lit _, _ => false
  | .Op c l r, t =>
    if evaluable l then
      match eval l with
      | .ok lv =>
        (match c with
         | .add => true
         | .sub => true
         | .mul => decide (lv ≠ 0)
         | .div => decide (lv ≠ 0) && decide (t ≠ 0)) && reqSafe r (solveRight c t lv)
      | .error _ => false
    else
      match eval r with
      | .ok rv =>
        (match c with
         | .add => true
         | .sub => true
         | .mul => decide (rv ≠ 0)
         | .div => decide (rv ≠ 0)) && reqSafe l (solveLeft c t rv)
      | .error _ => false

/-- Computing the required value of the single hole and evaluating the
tree with that value filled in. -/
def fillRequiredEval (e : Expr) (t : ℚ) : Except Err ℚ :=
  (required e t).bind fun r => eval (cloneAndFill e (.Lit r))

/-- The best value of a finished search run. -/
def resValue : DfsRes → Option ℚ
  | some (.ok (b, _)) => some b.value
  | _ => none

/-- The best candidate of a finished search run. -/
def resBest : DfsRes → Option Best
  | some (.ok (b, _)) => some b
  | _ => none

/-- The best value of a finished dfs_mem run. -/
def resValueMem : MemRes → Option ℚ
  | some (.ok (b, _, _)) => some b.value
  | _ => none

/-- The best candidate of a finished dfs_mem run. -/
def resBestMem : MemRes → Option Best
  | some (.ok (b, _, _)) => some b
  | _ => none

/-- A candidate is value-consistent when re-evaluating its tree yields
exactly its value field, except for the default candidate (a bare Open of
value 0) and a division-by-zero candidate (value forced to 0). -/
def consistentB (b : Best) : Prop :=
  eval b.expr = .ok b.value ∨
    (b.value = 0 ∧ (b.expr = .Open ∨ eval b.expr = .error .divByZero))

/-- The reference remaining-number-count heuristic of the driver
(main.cpp 623): the size of the captured full set minus the size of the
set of numbers already placed in the tree. -/
def hCount (total : Nat) (e : Expr) : ℚ :=
  qSub (total : ℚ) ((litFinset e).card : ℚ)

/-- An injective adversarial heuristic over the thirteen trees reachable
in a two-number run, exploring subtraction first; any such scoring
function can be passed to astar through its std::function parameter. -/
def hSubFirst (e : Expr) : ℚ :=
  if e = .Op .sub .Open .Open then 1
  else if e = .Op .sub (.Lit 2) .Open then 2
  else if e = .Op .sub (.Lit 4) .Open then 3
  else if e = .Op .add .Open .Open then 4
  else if e = .Op .add (.Lit 2) .Open then 5
  else if e = .Op .add (.Lit 4) .Open then 6
  else if e = .Op .mul .Open .Open then 7
  else if e = .Op .mul (.Lit 2) .Open then 8
  else if e = .Op .mul (.Lit 4) .Open then 9
  else if e = .Op .div .Open .Open then 10
  else if e = .Op .div (.Lit 2) .Open then 11
  else if e = .Op .div (.Lit 4) .Open then 12
  else 0

/-
Basic lemmas: the computable arithmetic helpers agree with the field
operations of ℚ.
-/

theorem qAdd_eq (a b : ℚ) : qAdd a b = a + b := by
  have ha : ((a.den : ℤ) : ℚ) ≠ 0 := by
    exact_mod_cast (Nat.cast_ne_zero (R := ℚ)).mpr a.den_nz
  have hb : ((b.den : ℤ) : ℚ) ≠ 0 := by
    exact_mod_cast (Nat.cast_ne_zero (R := ℚ)).mpr b.den_nz
  rw [qAdd, Rat.divInt_eq_div]
  conv_rhs => rw [← Rat.num_div_den a, ← Rat.num_div_den b]
  push_cast
  field_simp
  try ring

theorem qSub_eq (a b : ℚ) : qSub a b = a - b := by
  have ha : ((a.den : ℤ) : ℚ) ≠ 0 := by
    exact_mod_cast (Nat.cast_ne_zero (R := ℚ)).mpr a.den_nz
  have hb : ((b.den : ℤ) : ℚ) ≠ 0 := by
    exact_mod_cast (Nat.cast_ne_zero (R := ℚ)).mpr b.den_nz
  rw [qSub, Rat.divInt_eq_div]
  conv_rhs => rw [← Rat.num_div_den a, ← Rat.num_div_den b]
  push_cast
  field_simp
  try ring

theorem qMul_eq (a b : ℚ) : qMul a b = a * b := by
  have ha : ((a.den : ℤ) : ℚ) ≠ 0 := by
    exact_mod_cast (Nat.cast_ne_zero (R := ℚ)).mpr a.den_nz
  have hb : ((b.den : ℤ) : ℚ) ≠ 0 := by
    exact_mod_cast (Nat.cast_ne_zero (R := ℚ)).mpr b.den_nz
  rw [qMul, Rat.divInt_eq_div]
  conv_rhs => rw [← Rat.num_div_den a, ← Rat.num_div_den b]
  push_cast
  field_simp
  try ring

theorem qDiv_eq (a b : ℚ) : qDiv a b = a / b := by
  have ha : ((a.den : ℤ) : ℚ) ≠ 0 := by
    exact_mod_cast (Nat.cast_ne_zero (R := ℚ)).mpr a.den_nz
  have hb : ((b.den : ℤ) : ℚ) ≠ 0 := by
    exact_mod_cast (Nat.cast_ne_zero (R := ℚ)).mpr b.den_nz
  rcases eq_or_ne b 0 with rfl | hb0
  · simp [qDiv, Rat.divInt_eq_div]
  · have hn : ((b.num : ℤ) : ℚ) ≠ 0 := by
      exact_mod_cast Rat.num_ne_zero.mpr hb0
    rw [qDiv, Rat.divInt_eq_div]
    conv_rhs => rw [← Rat.num_div_den a, ← Rat.num_div_den b]
    push_cast
    field_simp
    try ring

theorem qAbs_eq (a : ℚ) : qAbs a = |a| := by
  rcases lt_or_le a 0 with h | h
  · have : Rat.divInt (-a.num) a.den = -a := by
      rw [Rat.divInt_eq_div]
      conv_rhs => rw [← Rat.num_div_den a]
      push_cast
      ring
    rw [qAbs, if_pos h, this, abs_of_neg h]
  · rw [qAbs, if_neg (not_lt.mpr h), abs_of_nonneg h]

theorem truncQ_intCast (i : ℤ) : truncQ (i : ℚ) = i := by
  rw [truncQ, Rat.intCast_num, Rat.intCast_den]
  exact Int.tdiv_one i

/-- better spelt with the ordinary absolute distance. -/
theorem better_iff (l r : Best) (t : ℤ) :
    better l r t = true ↔ |l.value - (t : ℚ)| < |r.value - (t : ℚ)| := by
  simp [better, qAbs_eq, qSub_eq]

/-- Nothing strictly beats a best whose value hits the integer target. -/
theorem better_exact_false (cur best : Best) (i : ℤ) (h : best.value = (i : ℚ)) :
    better cur best i = false := by
  rw [← Bool.not_eq_true, better_iff, h]
  simp

/-
Structural lemmas on trees.
-/

theorem exBindOk {A B : Type} (a : A) (f : A → Except Err B) :
    (Except.ok a >>= f) = f a := rfl

theorem exBindError {A B : Type} (er : Err) (f : A → Except Err B) :
    ((Except.error er : Except Err A) >>= f) = Except.error er := rfl

theorem exBindOkB {A B : Type} (a : A) (f : A → Except Err B) :
    Except.bind (Except.ok a) f = f a := rfl

theorem evaluable_iff_size : ∀ e : Expr, evaluable e = true ↔ size e = 0
  | .Open => by simp [evaluable, size]
  | .Lit v => by simp [evaluable, size]
  | .Op c l r => by
    simp only [evaluable, size, Bool.and_eq_true, evaluable_iff_size l, evaluable_iff_size r]
    omega

/-- Evaluating a tree without holes yields a value or DivisionByZero,
never the open-node error. -/
theorem eval_of_evaluable : ∀ e : Expr, evaluable e = true →
    eval e = .error .divByZero ∨ ∃ v, eval e = .ok v
  | .Lit v, _ => .inr ⟨v, rfl⟩
  | .Op c l r, h => by
    simp only [evaluable, Bool.and_eq_true] at h
    rcases eval_of_evaluable l h.1 with hl | ⟨a, hl⟩
    · left
      simp [eval, hl, exBindOk, exBindError]
    rcases eval_of_evaluable r h.2 with hr | ⟨b, hr⟩
    · left
      simp [eval, hl, hr, exBindOk, exBindError]
    cases c with
    | div =>
      by_cases hb : b = 0
      · left
        simp [eval, hl, hr, exBindOk, exBindError, opEval, hb]
      · right
        exact ⟨qDiv a b, by simp [eval, hl, hr, exBindOk, exBindError, opEval, hb]⟩
    | add => exact .inr ⟨qAdd a b, by simp [eval, hl, hr, exBindOk, exBindError, opEval]⟩
    | sub => exact .inr ⟨qSub a b, by simp [eval, hl, hr, exBindOk, exBindError, opEval]⟩
    | mul => exact .inr ⟨qMul a b, by simp [eval, hl, hr, exBindOk, exBindError, opEval]⟩

/-- A tree with a filled replacement slot: with the done flag already set,
fill_left copies the tree unchanged. -/
theorem fillAux_done : ∀ e repl : Expr, fillAux e repl true = (e, true)
  | .Open, _ => rfl
  | .Lit v, _ => rfl
  | .Op c l r, repl => by
    simp [fillAux, fillAux_done l repl, fillAux_done r repl]

/-- fill_left on a tree without holes copies the tree and leaves the done
flag untouched. -/
theorem fillAux_size_zero : ∀ e repl : Expr, size e = 0 → ∀ d, fillAux e repl d = (e, d)
  | .Lit v, _, _, _ => rfl
  | .Op c l r, repl, h, d => by
    simp only [size, Nat.add_eq_zero] at h
    simp [fillAux, fillAux_size_zero l repl h.1 d, fillAux_size_zero r repl h.2 d]

/-- fill_left on a tree with at least one hole sets the done flag,
replaces exactly the leftmost hole by the replacement, and accordingly
adjusts the literal multiset and the hole count. -/
theorem fillAux_of_pos : ∀ e repl : Expr, 0 < size e →
    (fillAux e repl false).2 = true ∧
    lits (fillAux e repl false).1 = lits e + lits repl ∧
    size (fillAux e repl false).1 = size e - 1 + size repl
  | .Open, repl, _ => by simp [fillAux, lits, size]
  | .Op c l r, repl, h => by
    simp only [size] at h
    by_cases hl : 0 < size l
    · obtain ⟨hdone, hlits, hsize⟩ := fillAux_of_pos l repl hl
      refine ⟨?_, ?_, ?_⟩ <;>
        simp only [fillAux, hdone, fillAux_done r repl, hlits, hsize, lits, size]
      · abel
      · omega
    · have hl0 : size l = 0 := by omega
      have hr : 0 < size r := by omega
      obtain ⟨hdone, hlits, hsize⟩ := fillAux_of_pos r repl hr
      refine ⟨?_, ?_, ?_⟩ <;>
        simp only [fillAux, fillAux_size_zero l repl hl0 false, hdone, hlits, hsize, lits, size]
      · abel
      · omega

theorem cloneAndFill_lits (e repl : Expr) (h : 0 < size e) :
    lits (cloneAndFill e repl) = lits e + lits repl :=
  (fillAux_of_pos e repl h).2.1

theorem cloneAndFill_size (e repl : Expr) (h : 0 < size e) :
    size (cloneAndFill e repl) = size e - 1 + size repl :=
  (fillAux_of_pos e repl h).2.2

/-- required on a tree with exactly one hole either succeeds or fails
with DivisionByZero; the literal-node and open-node errors cannot arise
there. -/
theorem required_size_one : ∀ e : Expr, size e = 1 → ∀ t : ℚ,
    required e t = .error .divByZero ∨ ∃ r, required e t = .ok r
  | .Open, _, t => .inr ⟨t, rfl⟩
  | .Lit _, h, _ => by simp [size] at h
  | .Op c l r, h, t => by
    simp only [size] at h
    by_cases hle : evaluable l = true
    · have hr1 : size r = 1 := by
        have := (evaluable_iff_size l).mp hle
        omega
      rcases eval_of_evaluable l hle with hl | ⟨a, hl⟩
      · left
        simp [required, hle, hl, exBindOk, exBindError]
      · rcases required_size_one r hr1 (solveRight c t a) with hh | ⟨v, hh⟩
        · left
          simp [required, hle, hl, exBindOk, exBindError, hh]
        · right
          exact ⟨v, by simp [required, hle, hl, exBindOk, exBindError, hh]⟩
    · have hl1 : size l = 1 := by
        rcases Nat.eq_zero_or_pos (size l) with h0 | hpos
        · exact absurd ((evaluable_iff_size l).mpr h0) hle
        · omega
      have hr0 : size r = 0 := by omega
      have hre : evaluable r = true := (evaluable_iff_size r).mpr hr0
      rcases eval_of_evaluable r hre with hr | ⟨b, hr⟩
      · left
        simp [required, hle, hr, exBindOk, exBindError]
      · rcases required_size_one l hl1 (solveLeft c t b) with hh | ⟨v, hh⟩
        · left
          simp [required, hle, hr, exBindOk, exBindError, hh]
        · right
          exact ⟨v, by simp [required, hle, hr, exBindOk, exBindError, hh]⟩

/-- Best(expr) on an evaluable tree never propagates an exception. -/
theorem mkBest_of_evaluable (e : Expr) (h : evaluable e = true) :
    ∃ b : Best, mkBest e = .ok b := by
  rcases eval_of_evaluable e h with hd | ⟨v, hv⟩
  · exact ⟨⟨e, 0⟩, by simp [mkBest, hd]⟩
  · exact ⟨⟨e, v⟩, by simp [mkBest, hv]⟩

/-- Whatever Best(expr) produces is value-consistent and carries the tree
it was built from. -/
theorem mkBest_ok (e : Expr) (b : Best) : mkBest e = .ok b →
    b.expr = e ∧ consistentB b := by
  rw [mkBest]
  rcases he : eval e with er | v
  case ok =>
    intro h
    obtain rfl : Best.mk e v = b := Except.ok.inj h
    exact ⟨rfl, .inl he⟩
  case error =>
    cases er with
    | divByZero =>
      intro h
      obtain rfl : Best.mk e 0 = b := Except.ok.inj h
      exact ⟨rfl, .inr ⟨rfl, .inr he⟩⟩
    | openNodeEval => intro h; exact absurd h (by simp)
    | requiredLiteralNode => intro h; exact absurd h (by simp)

theorem consistentB_defaultBest : consistentB defaultBest :=
  .inr ⟨rfl, .inl rfl⟩

/-- The literal multiset of a candidate is bounded by the budget of the
tree it was built from. -/
theorem litFinset_eq_toFinset : ∀ e : Expr, litFinset e = (lits e).toFinset
  | .Open => rfl
  | .Lit v => by simp [litFinset, lits]
  | .Op c l r => by
    simp [litFinset, lits, litFinset_eq_toFinset l, litFinset_eq_toFinset r,
      Multiset.toFinset_add]

/-- On a duplicate-free literal multiset the memo key carries exactly the
literal multiset of the stored tree. -/
theorem litFinset_val (e : Expr) (h : (lits e).Nodup) : (litFinset e).val = lits e := by
  rw [litFinset_eq_toFinset, Multiset.toFinset_val, Multiset.dedup_eq_self.mpr h]

/-- Erasing an occurrence and adding it back preserves the multiset of a
list. -/
theorem erase_add_singleton (l : List ℚ) (n : ℚ) (h : n ∈ l) :
    (l.erase n : Multiset ℚ) + {n} = (l : Multiset ℚ) := by
  have hp : List.Perm l (n :: l.erase n) := List.perm_cons_erase h
  have hl : (l : Multiset ℚ) = (↑(n :: l.erase n) : Multiset ℚ) :=
    Multiset.coe_eq_coe.mpr hp
  rw [hl, ← Multiset.cons_coe, add_comm, Multiset.singleton_add]

/-
Master invariant for the exhaustive search: any finished run keeps the
literal multiset of the best inside the budget M, keeps the best
value-consistent, and never escapes with an exception.
-/

/-- The master property of a one-level search continuation. -/
def SearchOk (M : Multiset ℚ) (child : Expr → List ℚ → Best → DfsRes) : Prop :=
  ∀ (e : Expr) (ns : List ℚ) (best : Best),
    lits e + (ns : Multiset ℚ) ≤ M → lits best.expr ≤ M → consistentB best →
    child e ns best = none ∨
    ∃ b tr, child e ns best = some (.ok (b, tr)) ∧ lits b.expr ≤ M ∧ consistentB b

theorem dfsLoopNums_master (M : Multiset ℚ) (child : Expr → List ℚ → Best → DfsRes)
    (hc : SearchOk M child) (t : ℚ) (e : Expr) (full : List ℚ) (hsz : 0 < size e)
    (hbud : lits e + (full : Multiset ℚ) ≤ M) :
    ∀ iter best, (∀ n ∈ iter, n ∈ full) → lits best.expr ≤ M → consistentB best →
    dfsLoopNums child t e full iter best = none ∨
    ∃ fl b tr, dfsLoopNums child t e full iter best = some (.ok (fl, b, tr)) ∧
      lits b.expr ≤ M ∧ consistentB b
  | [], best, _, hb, hcons => .inr ⟨false, best, [], rfl, hb, hcons⟩
  | n :: rest, best, hmem, hb, hcons => by
    have hn : n ∈ full := hmem n (List.mem_cons_self n rest)
    have hchildbud : lits (cloneAndFill e (.Lit n)) + ((full.erase n : List ℚ) : Multiset ℚ) ≤ M := by
      rw [cloneAndFill_lits e (.Lit n) hsz]
      calc lits e + lits (.Lit n) + ((full.erase n : List ℚ) : Multiset ℚ)
          = lits e + (((full.erase n : List ℚ) : Multiset ℚ) + {n}) := by
            simp only [lits]
            abel
        _ = lits e + (full : Multiset ℚ) := by rw [erase_add_singleton full n hn]
        _ ≤ M := hbud
    rcases hc (cloneAndFill e (.Lit n)) (full.erase n) best hchildbud hb hcons with
      hnone | ⟨opt, tr1, heq, hol, hoc⟩
    · left
      simp [dfsLoopNums, hnone]
    · have hb1 : lits (if better opt best (truncQ t) then opt else best).expr ≤ M := by
        split
        · exact hol
        · exact hb
      have hc1 : consistentB (if better opt best (truncQ t) then opt else best) := by
        split
        · exact hoc
        · exact hcons
      by_cases hlucky : (if better opt best (truncQ t) then opt else best).value = t
      · right
        exact ⟨true, _, tr1, by simp only [dfsLoopNums, heq]; rw [if_pos hlucky], hb1, hc1⟩
      · rcases dfsLoopNums_master M child hc t e full hsz hbud rest
          (if better opt best (truncQ t) then opt else best)
          (fun m hm => hmem m (List.mem_cons_of_mem n hm)) hb1 hc1 with
          hnone2 | ⟨fl, b2, tr2, heq2, hb2, hc2⟩
        · left
          simp [dfsLoopNums, heq, hlucky, hnone2]
        · right
          exact ⟨fl, b2, tr1 ++ tr2, by simp [dfsLoopNums, heq, hlucky, heq2], hb2, hc2⟩

theorem dfsLoopOps_master (M : Multiset ℚ) (child : Expr → List ℚ → Best → DfsRes)
    (hc : SearchOk M child) (t : ℚ) (e : Expr) (ns : List ℚ) (hsz : 0 < size e)
    (hbud : lits e + (ns : Multiset ℚ) ≤ M) :
    ∀ ops best, lits best.expr ≤ M → consistentB best →
    dfsLoopOps child t e ns ops best = none ∨
    ∃ fl b tr, dfsLoopOps child t e ns ops best = some (.ok (fl, b, tr)) ∧
      lits b.expr ≤ M ∧ consistentB b
  | [], best, hb, hcons => .inr ⟨false, best, [], rfl, hb, hcons⟩
  | c :: rest, best, hb, hcons => by
    have hchildbud : lits (cloneAndFill e (.Op c .Open .Open)) + (ns : Multiset ℚ) ≤ M := by
      rw [cloneAndFill_lits e (.Op c .Open .Open) hsz]
      simpa [lits] using hbud
    rcases hc (cloneAndFill e (.Op c .Open .Open)) ns best hchildbud hb hcons with
      hnone | ⟨opt, tr1, heq, hol, hoc⟩
    · left
      simp [dfsLoopOps, hnone]
    · have hb1 : lits (if better opt best (truncQ t) then opt else best).expr ≤ M := by
        split
        · exact hol
        · exact hb
      have hc1 : consistentB (if better opt best (truncQ t) then opt else best) := by
        split
        · exact hoc
        · exact hcons
      by_cases hlucky : (if better opt best (truncQ t) then opt else best).value = t
      · right
        exact ⟨true, _, tr1, by simp only [dfsLoopOps, heq]; rw [if_pos hlucky], hb1, hc1⟩
      · rcases dfsLoopOps_master M child hc t e ns hsz hbud rest
          (if better opt best (truncQ t) then opt else best) hb1 hc1 with
          hnone2 | ⟨fl, b2, tr2, heq2, hb2, hc2⟩
        · left
          simp [dfsLoopOps, heq, hlucky, hnone2]
        · right
          exact ⟨fl, b2, tr1 ++ tr2, by simp [dfsLoopOps, heq, hlucky, heq2], hb2, hc2⟩

theorem dfsT_master : ∀ (fuel : Nat) (t : ℚ) (M : Multiset ℚ),
    SearchOk M (fun e2 ns2 b2 => dfsT fuel e2 t ns2 b2)
  | 0, _, _ => fun _ _ _ _ _ _ => .inl rfl
  | fuel + 1, t, M => by
    intro e ns best hbud hb hcons
    by_cases hleaf : (ns.isEmpty && evaluable e) = true
    · simp only [Bool.and_eq_true] at hleaf
      obtain ⟨cur, hcur⟩ := mkBest_of_evaluable e hleaf.2
      obtain ⟨hcexpr, hccons⟩ := mkBest_ok e cur hcur
      right
      refine ⟨if better cur best (truncQ t) then cur else best, [cur.value], ?_, ?_, ?_⟩
      · simp [dfsT, hleaf.1, hleaf.2, hcur]
      · split
        · rw [hcexpr]
          exact le_trans (le_add_right (le_refl (lits e))) hbud
        · exact hb
      · split
        · exact hccons
        · exact hcons
    · by_cases hrec : (!ns.isEmpty && !evaluable e) = true
      · simp only [Bool.and_eq_true, Bool.not_eq_true'] at hrec
        have hsz : 0 < size e := by
          rcases Nat.eq_zero_or_pos (size e) with h0 | hpos
          · exact absurd ((evaluable_iff_size e).mpr h0) (by simp [hrec.2])
          · exact hpos
        have hko : SearchOk M (fun e2 ns2 b2 => dfsT fuel e2 t ns2 b2) := dfsT_master fuel t M
        rcases dfsLoopNums_master M _ hko t e ns hsz hbud ns best (fun _ hm => hm) hb hcons with
          hnone | ⟨ret, b1, tr1, heq1, hb1, hc1⟩
        · left
          simp [dfsT, hleaf, hrec.1, hrec.2, hnone]
        · rcases ret with _ | _
          · by_cases hroom : size e < ns.length
            · rcases dfsLoopOps_master M _ hko t e ns hsz hbud [.add, .sub, .mul, .div] b1 hb1 hc1 with
                hnone | ⟨fl, b2, tr2, heq2, hb2, hc2⟩
              · left
                simp [dfsT, hleaf, hrec.1, hrec.2, heq1, hroom, hnone]
              · right
                exact ⟨b2, tr1 ++ tr2, by simp [dfsT, hleaf, hrec.1, hrec.2, heq1, hroom, heq2],
                  hb2, hc2⟩
            · right
              exact ⟨b1, tr1, by simp [dfsT, hleaf, hrec.1, hrec.2, heq1, hroom], hb1, hc1⟩
          · right
            exact ⟨b1, tr1, by simp [dfsT, hleaf, hrec.1, hrec.2, heq1], hb1, hc1⟩
      · right
        refine ⟨best, [], ?_, hb, hcons⟩
        simp only [dfsT]
        rw [if_neg (by simpa using hleaf), if_neg (by simpa using hrec)]

/-
Master invariant for the memoized search.  Every memo entry stores an
evaluable tree whose literal multiset is exactly the key set.
-/

/-- The memo-table invariant. -/
def MemInv (mem : Mem) : Prop :=
  ∀ (k : Finset ℚ) (v : ℚ) (ex : Expr), mem k v = some ex →
    lits ex = k.val ∧ evaluable ex = true

theorem memInv_empty : MemInv memEmpty := by
  intro k v ex h
  simp [memEmpty] at h

theorem memInv_insert (mem : Mem) (e : Expr) (v : ℚ) (hl : lits e = (litFinset e).val)
    (he : evaluable e = true) (hm : MemInv mem) : MemInv (memInsert mem (litFinset e) v e) := by
  intro k v2 ex h
  rw [memInsert] at h
  split at h
  · cases h
    rename_i hkv
    exact ⟨by rw [hl, hkv.1], he⟩
  · exact hm k v2 ex h

/-- A nodup budget makes the remaining-numbers list duplicate-free. -/
theorem ns_nodup_of_budget (e : Expr) (ns : List ℚ) (M : Multiset ℚ) (hM : M.Nodup)
    (hbud : lits e + (ns : Multiset ℚ) ≤ M) : ns.Nodup := by
  have h1 : (ns : Multiset ℚ) ≤ M := le_trans (le_add_self) hbud
  exact Multiset.coe_nodup.mp (Multiset.nodup_of_le h1 hM)

/-- A nodup budget makes the literal multiset of the tree duplicate-free,
so the memo key determines it. -/
theorem lits_key_of_budget (e : Expr) (ns : List ℚ) (M : Multiset ℚ) (hM : M.Nodup)
    (hbud : lits e + (ns : Multiset ℚ) ≤ M) : lits e = (litFinset e).val := by
  have h1 : lits e ≤ M := le_trans (le_add_right (le_refl (lits e))) hbud
  exact (litFinset_val e (Multiset.nodup_of_le h1 hM)).symm

/-- The memo probe of dfs_mem and astar: under the memo invariant it
either passes (continuing the search) or produces a candidate within the
budget; it never escapes with an exception. -/
theorem probeStep_master (t : ℚ) (e : Expr) (ns : List ℚ) (mem : Mem) (M : Multiset ℚ)
    (hM : M.Nodup) (hbud : lits e + (ns : Multiset ℚ) ≤ M) (hsz : size e = 1)
    (hmem : MemInv mem) :
    probeStep t e ns mem = .ok none ∨
    ∃ b, probeStep t e ns mem = .ok (some b) ∧ lits b.expr ≤ M ∧ consistentB b := by
  rcases required_size_one e hsz t with hdiv | ⟨r, hok⟩
  · left
    simp [probeStep, hdiv]
  · rcases hlook : mem ns.toFinset r with _ | sub
    · left
      simp [probeStep, hok, hlook]
    · obtain ⟨hsl, hse⟩ := hmem ns.toFinset r sub hlook
      have hnodup : ns.Nodup := ns_nodup_of_budget e ns M hM hbud
      have hval : (ns.toFinset).val = (ns : Multiset ℚ) := by
        rw [List.toFinset_val, List.dedup_eq_self.mpr hnodup]
      have hsub0 : size sub = 0 := (evaluable_iff_size sub).mp hse
      have hfl : lits (cloneAndFill e sub) = lits e + (ns : Multiset ℚ) := by
        rw [cloneAndFill_lits e sub (by omega), hsl, hval]
      have hfs : evaluable (cloneAndFill e sub) = true := by
        rw [evaluable_iff_size, cloneAndFill_size e sub (by omega)]
        omega
      obtain ⟨b, hble⟩ := mkBest_of_evaluable (cloneAndFill e sub) hfs
      obtain ⟨hbe, hbc⟩ := mkBest_ok _ b hble
      right
      refine ⟨b, ?_, ?_, hbc⟩
      · simp [probeStep, hok, hlook, hble, Except.map]
      · rw [hbe, hfl]
        exact hbud

/-- The intermediate-result insertion of dfs_mem (and of emplace under
use_mem): the memo invariant survives and no exception escapes. -/
theorem memStore_master (e : Expr) (mem : Mem) (M : Multiset ℚ) (hM : M.Nodup)
    (ns : List ℚ) (hbud : lits e + (ns : Multiset ℚ) ≤ M) (he : evaluable e = true)
    (hmem : MemInv mem) :
    (eval e = .error .divByZero) ∨
    ∃ v, eval e = .ok v ∧ MemInv (memInsert mem (litFinset e) v e) := by
  rcases eval_of_evaluable e he with hdiv | ⟨v, hv⟩
  · exact .inl hdiv
  · exact .inr ⟨v, hv, memInv_insert mem e v (lits_key_of_budget e ns M hM hbud) he hmem⟩

/-- The master property of a one-level memoized continuation. -/
def SearchMemOk (M : Multiset ℚ) (child : Expr → List ℚ → Best → Mem → MemRes) : Prop :=
  ∀ (e : Expr) (ns : List ℚ) (best : Best) (mem : Mem),
    lits e + (ns : Multiset ℚ) ≤ M → lits best.expr ≤ M → consistentB best → MemInv mem →
    child e ns best mem = none ∨
    ∃ b m2 tr, child e ns best mem = some (.ok (b, m2, tr)) ∧
      lits b.expr ≤ M ∧ consistentB b ∧ MemInv m2

theorem dfsMemLoopNums_master (M : Multiset ℚ) (child : Expr → List ℚ → Best → Mem → MemRes)
    (hc : SearchMemOk M child) (t : ℚ) (e : Expr) (full : List ℚ) (hsz : 0 < size e)
    (hbud : lits e + (full : Multiset ℚ) ≤ M) :
    ∀ iter best mem, (∀ n ∈ iter, n ∈ full) → lits best.expr ≤ M → consistentB best →
      MemInv mem →
    dfsMemLoopNums child t e full iter best mem = none ∨
    ∃ fl b m2 tr, dfsMemLoopNums child t e full iter best mem = some (.ok (fl, b, m2, tr)) ∧
      lits b.expr ≤ M ∧ consistentB b ∧ MemInv m2
  | [], best, mem, _, hb, hcons, hmem => .inr ⟨false, best, mem, [], rfl, hb, hcons, hmem⟩
  | n :: rest, best, mem, hmemb, hb, hcons, hmem => by
    have hn : n ∈ full := hmemb n (List.mem_cons_self n rest)
    have hchildbud : lits (cloneAndFill e (.Lit n)) + ((full.erase n : List ℚ) : Multiset ℚ) ≤ M := by
      rw [cloneAndFill_lits e (.Lit n) hsz]
      calc lits e + lits (.Lit n) + ((full.erase n : List ℚ) : Multiset ℚ)
          = lits e + (((full.erase n : List ℚ) : Multiset ℚ) + {n}) := by
            simp only [lits]
            abel
        _ = lits e + (full : Multiset ℚ) := by rw [erase_add_singleton full n hn]
        _ ≤ M := hbud
    rcases hc (cloneAndFill e (.Lit n)) (full.erase n) best mem hchildbud hb hcons hmem with
      hnone | ⟨opt, m1, tr1, heq, hol, hoc, hom⟩
    · left
      simp [dfsMemLoopNums, hnone]
    · have hb1 : lits (if better opt best (truncQ t) then opt else best).expr ≤ M := by
        split
        · exact hol
        · exact hb
      have hc1 : consistentB (if better opt best (truncQ t) then opt else best) := by
        split
        · exact hoc
        · exact hcons
      by_cases hlucky : (if better opt best (truncQ t) then opt else best).value = t
      · right
        exact ⟨true, _, m1, tr1, by simp only [dfsMemLoopNums, heq]; rw [if_pos hlucky],
          hb1, hc1, hom⟩
      · rcases dfsMemLoopNums_master M child hc t e full hsz hbud rest
          (if better opt best (truncQ t) then opt else best) m1
          (fun m hm => hmemb m (List.mem_cons_of_mem n hm)) hb1 hc1 hom with
          hnone2 | ⟨fl, b2, m2, tr2, heq2, hb2, hc2, hm2⟩
        · left
          simp [dfsMemLoopNums, heq, hlucky, hnone2]
        · right
          exact ⟨fl, b2, m2, tr1 ++ tr2, by simp [dfsMemLoopNums, heq, hlucky, heq2],
            hb2, hc2, hm2⟩

theorem dfsMemLoopOps_master (M : Multiset ℚ) (child : Expr → List ℚ → Best → Mem → MemRes)
    (hc : SearchMemOk M child) (t : ℚ) (e : Expr) (ns : List ℚ) (hsz : 0 < size e)
    (hbud : lits e + (ns : Multiset ℚ) ≤ M) :
    ∀ ops best mem, lits best.expr ≤ M → consistentB best → MemInv mem →
    dfsMemLoopOps child t e ns ops best mem = none ∨
    ∃ fl b m2 tr, dfsMemLoopOps child t e ns ops best mem = some (.ok (fl, b, m2, tr)) ∧
      lits b.expr ≤ M ∧ consistentB b ∧ MemInv m2
  | [], best, mem, hb, hcons, hmem => .inr ⟨false, best, mem, [], rfl, hb, hcons, hmem⟩
  | c :: rest, best, mem, hb, hcons, hmem => by
    have hchildbud : lits (cloneAndFill e (.Op c .Open .Open)) + (ns : Multiset ℚ) ≤ M := by
      rw [cloneAndFill_lits e (.Op c .Open .Open) hsz]
      simpa [lits] using hbud
    rcases hc (cloneAndFill e (.Op c .Open .Open)) ns best mem hchildbud hb hcons hmem with
      hnone | ⟨opt, m1, tr1, heq, hol, hoc, hom⟩
    · left
      simp [dfsMemLoopOps, hnone]
    · have hb1 : lits (if better opt best (truncQ t) then opt else best).expr ≤ M := by
        split
        · exact hol
        · exact hb
      have hc1 : consistentB (if better opt best (truncQ t) then opt else best) := by
        split
        · exact hoc
        · exact hcons
      by_cases hlucky : (if better opt best (truncQ t) then opt else best).value = t
      · right
        exact ⟨true, _, m1, tr1, by simp only [dfsMemLoopOps, heq]; rw [if_pos hlucky],
          hb1, hc1, hom⟩
      · rcases dfsMemLoopOps_master M child hc t e ns hsz hbud rest
          (if better opt best (truncQ t) then opt else best) m1 hb1 hc1 hom with
          hnone2 | ⟨fl, b2, m2, tr2, heq2, hb2, hc2, hm2⟩
        · left
          simp [dfsMemLoopOps, heq, hlucky, hnone2]
        · right
          exact ⟨fl, b2, m2, tr1 ++ tr2, by simp [dfsMemLoopOps, heq, hlucky, heq2],
            hb2, hc2, hm2⟩

theorem dfsMemT_master : ∀ (fuel : Nat) (t : ℚ) (M : Multiset ℚ), M.Nodup →
    SearchMemOk M (fun e2 ns2 b2 m2 => dfsMemT fuel e2 t ns2 b2 m2)
  | 0, _, _, _ => fun _ _ _ _ _ _ _ _ => .inl rfl
  | fuel + 1, t, M, hM => by
    intro e ns best mem hbud hb hcons hmem
    by_cases hleaf : (ns.isEmpty && evaluable e) = true
    · simp only [Bool.and_eq_true] at hleaf
      obtain ⟨cur, hcur⟩ := mkBest_of_evaluable e hleaf.2
      obtain ⟨hcexpr, hccons⟩ := mkBest_ok e cur hcur
      right
      refine ⟨if better cur best (truncQ t) then cur else best, mem, [cur.value], ?_, ?_, ?_, hmem⟩
      · simp [dfsMemT, hleaf.1, hleaf.2, hcur]
      · split
        · rw [hcexpr]
          exact le_trans (le_add_right (le_refl (lits e))) hbud
        · exact hb
      · split
        · exact hccons
        · exact hcons
    · by_cases hstore : (!ns.isEmpty && evaluable e) = true
      · simp only [Bool.and_eq_true, Bool.not_eq_true'] at hstore
        rcases memStore_master e mem M hM ns hbud hstore.2 hmem with hdiv | ⟨v, hv, hins⟩
        · right
          refine ⟨best, mem, [], ?_, hb, hcons, hmem⟩
          simp [dfsMemT, hleaf, hstore.1, hstore.2, hdiv]
        · right
          refine ⟨best, memInsert mem (litFinset e) v e, [], ?_, hb, hcons, hins⟩
          simp [dfsMemT, hleaf, hstore.1, hstore.2, hv]
      · by_cases hrec : (!ns.isEmpty && !evaluable e) = true
        · simp only [Bool.and_eq_true, Bool.not_eq_true'] at hrec
          have hsz : 0 < size e := by
            rcases Nat.eq_zero_or_pos (size e) with h0 | hpos
            · exact absurd ((evaluable_iff_size e).mpr h0) (by simp [hrec.2])
            · exact hpos
          have hko : SearchMemOk M (fun e2 ns2 b2 m2 => dfsMemT fuel e2 t ns2 b2 m2) :=
            dfsMemT_master fuel t M hM
          by_cases hone : (size e == 1) = true
          · have hone1 : size e = 1 := by simpa using hone
            rcases probeStep_master t e ns mem M hM hbud hone1 hmem with hpass | ⟨pb, hpb, hpl, hpc⟩
            · rcases dfsMemLoopNums_master M _ hko t e ns hsz hbud ns best mem
                (fun _ hm => hm) hb hcons hmem with
                hnone | ⟨ret, b1, m1, tr1, heq1, hb1, hc1, hm1⟩
              · left
                simp [dfsMemT, hleaf, hstore, hrec.1, hrec.2, hone, hpass, hnone]
              · rcases ret with _ | _
                · by_cases hroom : size e < ns.length
                  · rcases dfsMemLoopOps_master M _ hko t e ns hsz hbud
                      [.add, .sub, .mul, .div] b1 m1 hb1 hc1 hm1 with
                      hnone | ⟨fl, b2, m2, tr2, heq2, hb2, hc2, hm2⟩
                    · left
                      simp [dfsMemT, hleaf, hstore, hrec.1, hrec.2, hone, hpass, heq1,
                        hroom, hnone]
                    · right
                      exact ⟨b2, m2, tr1 ++ tr2,
                        by simp [dfsMemT, hleaf, hstore, hrec.1, hrec.2, hone, hpass, heq1,
                          hroom, heq2], hb2, hc2, hm2⟩
                  · right
                    exact ⟨b1, m1, tr1,
                      by simp [dfsMemT, hleaf, hstore, hrec.1, hrec.2, hone, hpass, heq1,
                        hroom], hb1, hc1, hm1⟩
                · right
                  exact ⟨b1, m1, tr1,
                    by simp [dfsMemT, hleaf, hstore, hrec.1, hrec.2, hone, hpass, heq1],
                    hb1, hc1, hm1⟩
            · right
              refine ⟨pb, mem, [pb.value], ?_, hpl, hpc, hmem⟩
              simp [dfsMemT, hleaf, hstore, hrec.1, hrec.2, hone, hpb]
          · rcases dfsMemLoopNums_master M _ hko t e ns hsz hbud ns best mem
              (fun _ hm => hm) hb hcons hmem with
              hnone | ⟨ret, b1, m1, tr1, heq1, hb1, hc1, hm1⟩
            · left
              simp [dfsMemT, hleaf, hstore, hrec.1, hrec.2, hone, hnone]
            · rcases ret with _ | _
              · by_cases hroom : size e < ns.length
                · rcases dfsMemLoopOps_master M _ hko t e ns hsz hbud
                    [.add, .sub, .mul, .div] b1 m1 hb1 hc1 hm1 with
                    hnone | ⟨fl, b2, m2, tr2, heq2, hb2, hc2, hm2⟩
                  · left
                    simp [dfsMemT, hleaf, hstore, hrec.1, hrec.2, hone, heq1, hroom, hnone]
                  · right
                    exact ⟨b2, m2, tr1 ++ tr2,
                      by simp [dfsMemT, hleaf, hstore, hrec.1, hrec.2, hone, heq1, hroom,
                        heq2], hb2, hc2, hm2⟩
                · right
                  exact ⟨b1, m1, tr1,
                    by simp [dfsMemT, hleaf, hstore, hrec.1, hrec.2, hone, heq1, hroom],
                    hb1, hc1, hm1⟩
              · right
                exact ⟨b1, m1, tr1,
                  by simp [dfsMemT, hleaf, hstore, hrec.1, hrec.2, hone, heq1], hb1, hc1, hm1⟩
        · right
          refine ⟨best, mem, [], ?_, hb, hcons, hmem⟩
          simp only [dfsMemT]
          rw [if_neg (by simpa using hleaf), if_neg (by simpa using hstore),
            if_neg (by simpa using hrec)]

/-
Master invariant for the informed search.
-/

/-- The frontier invariant: every entry is a tree with a hole whose
literal multiset together with its remaining numbers stays inside the
budget. -/
def QInv (M : Multiset ℚ) (q : Queue) : Prop :=
  ∀ nd ∈ q, evaluable nd.expr = false ∧
    lits nd.expr + (nd.numbers : Multiset ℚ) ≤ M

theorem qInv_nil (M : Multiset ℚ) : QInv M [] := by
  intro nd h
  cases h

theorem qInv_append (M : Multiset ℚ) (q : Queue) (nd : Node) (hq : QInv M q)
    (h1 : evaluable nd.expr = false) (h2 : lits nd.expr + (nd.numbers : Multiset ℚ) ≤ M) :
    QInv M (q ++ [nd]) := by
  intro x hx
  rcases List.mem_append.mp hx with hx | hx
  · exact hq x hx
  · rcases List.mem_singleton.mp hx with rfl
    exact ⟨h1, h2⟩

/-- Popping the frontier returns a member of the frontier and a frontier
of members. -/
theorem popMin_sub : ∀ q : Queue, ∀ cur q1, popMin q = some (cur, q1) →
    cur ∈ q ∧ ∀ x ∈ q1, x ∈ q
  | [], cur, q1 => by intro h; simp [popMin] at h
  | x :: xs, cur, q1 => by
    intro h
    rw [popMin] at h
    rcases hrec : popMin xs with _ | ⟨y, rest⟩
    · simp only [hrec] at h
      cases h
      exact ⟨List.mem_cons_self x xs, by intro z hz; cases hz⟩
    · simp only [hrec] at h
      obtain ⟨hy, hrest⟩ := popMin_sub xs y rest hrec
      by_cases hle : x.dist ≤ y.dist
      · rw [if_pos hle] at h
        cases h
        exact ⟨List.mem_cons_self x xs, fun z hz => List.mem_cons_of_mem x hz⟩
      · rw [if_neg hle] at h
        cases h
        refine ⟨List.mem_cons_of_mem x hy, ?_⟩
        intro z hz
        rcases List.mem_cons.mp hz with rfl | hz
        · exact List.mem_cons_self z xs
        · exact List.mem_cons_of_mem x (hrest z hz)

theorem popMin_of_ne_nil (q : Queue) (h : q ≠ []) : ∃ cur q1, popMin q = some (cur, q1) := by
  rcases q with _ | ⟨x, xs⟩
  · exact absurd rfl h
  · rw [popMin]
    rcases hrec : popMin xs with _ | ⟨y, rest⟩
    · exact ⟨x, [], rfl⟩
    · by_cases hle : x.dist ≤ y.dist
      · exact ⟨x, xs, by simp only [hrec]; rw [if_pos hle]⟩
      · exact ⟨y, x :: rest, by simp only [hrec]; rw [if_neg hle]⟩

/-- emplace keeps every invariant and never escapes with an exception. -/
theorem emplaceM_master (e : Expr) (t : ℤ) (ns : List ℚ) (q : Queue) (h : Expr → ℚ)
    (best : Best) (mem : Mem) (um uu : Bool) (M : Multiset ℚ) (hM : M.Nodup)
    (hbud : lits e + (ns : Multiset ℚ) ≤ M) (hq : QInv M q) (hb : lits best.expr ≤ M)
    (hcons : consistentB best) (hmem : MemInv mem) :
    ∃ q2 b2 m2 tr, emplaceM e t ns q h best mem um uu = .ok (q2, b2, m2, tr) ∧
      QInv M q2 ∧ lits b2.expr ≤ M ∧ consistentB b2 ∧ MemInv m2 := by
  by_cases he : evaluable e = true
  · by_cases hni : ns.isEmpty = true
    · obtain ⟨cur, hcur⟩ := mkBest_of_evaluable e he
      obtain ⟨hce, hcc⟩ := mkBest_ok e cur hcur
      have hcl : lits cur.expr ≤ M := by
        rw [hce]
        exact le_trans (le_add_right (le_refl (lits e))) hbud
      have hb1 : lits (if better cur best t then cur else best).expr ≤ M := by
        split
        · exact hcl
        · exact hb
      have hc1 : consistentB (if better cur best t then cur else best) := by
        split
        · exact hcc
        · exact hcons
      by_cases hum : um = true
      · rcases memStore_master e mem M hM ns hbud he hmem with hdiv | ⟨v, hv, hins⟩
        · refine ⟨q, if better cur best t then cur else best, mem, [cur.value], ?_,
            hq, hb1, hc1, hmem⟩
          simp [emplaceM, he, hni, hcur, Except.map, hum, hdiv]
        · refine ⟨q, if better cur best t then cur else best,
            memInsert mem (litFinset e) v e, [cur.value], ?_, hq, hb1, hc1, hins⟩
          simp [emplaceM, he, hni, hcur, Except.map, hum, hv]
      · refine ⟨q, if better cur best t then cur else best, mem, [cur.value], ?_,
          hq, hb1, hc1, hmem⟩
        simp [emplaceM, he, hni, hcur, Except.map, hum]
    · by_cases hum : um = true
      · rcases memStore_master e mem M hM ns hbud he hmem with hdiv | ⟨v, hv, hins⟩
        · refine ⟨q, best, mem, [], ?_, hq, hb, hcons, hmem⟩
          simp [emplaceM, he, hni, hum, hdiv]
        · refine ⟨q, best, memInsert mem (litFinset e) v e, [], ?_, hq, hb, hcons, hins⟩
          simp [emplaceM, he, hni, hum, hv]
      · refine ⟨q, best, mem, [], ?_, hq, hb, hcons, hmem⟩
        simp [emplaceM, he, hni, hum]
  · have hef : evaluable e = false := by simpa using he
    by_cases huu : uu = true
    · by_cases hs : sorted e = true
      · refine ⟨q ++ [⟨e, h e, ns⟩], best, mem, [], ?_, ?_, hb, hcons, hmem⟩
        · simp [emplaceM, hef, huu, hs]
        · exact qInv_append M q _ hq hef hbud
      · refine ⟨q, best, mem, [], ?_, hq, hb, hcons, hmem⟩
        simp [emplaceM, hef, huu, hs]
    · refine ⟨q ++ [⟨e, h e, ns⟩], best, mem, [], ?_, ?_, hb, hcons, hmem⟩
      · simp [emplaceM, hef, huu]
      · exact qInv_append M q _ hq hef hbud

/-- The number expansion of one popped node keeps every invariant. -/
theorem expandNums_master (t : ℤ) (cur : Node) (h : Expr → ℚ) (um uu : Bool)
    (M : Multiset ℚ) (hM : M.Nodup) (hsz : 0 < size cur.expr)
    (hbud : lits cur.expr + (cur.numbers : Multiset ℚ) ≤ M) :
    ∀ iter q best mem, (∀ n ∈ iter, n ∈ cur.numbers) → QInv M q → lits best.expr ≤ M →
      consistentB best → MemInv mem →
    ∃ q2 b2 m2 tr, expandNums t cur h um uu iter q best mem = .ok (q2, b2, m2, tr) ∧
      QInv M q2 ∧ lits b2.expr ≤ M ∧ consistentB b2 ∧ MemInv m2
  | [], q, best, mem, _, hq, hb, hcons, hmem =>
    ⟨q, best, mem, [], rfl, hq, hb, hcons, hmem⟩
  | n :: rest, q, best, mem, hmemb, hq, hb, hcons, hmem => by
    have hn : n ∈ cur.numbers := hmemb n (List.mem_cons_self n rest)
    have hchildbud : lits (cloneAndFill cur.expr (.Lit n)) +
        ((cur.numbers.erase n : List ℚ) : Multiset ℚ) ≤ M := by
      rw [cloneAndFill_lits cur.expr (.Lit n) hsz]
      calc lits cur.expr + lits (.Lit n) + ((cur.numbers.erase n : List ℚ) : Multiset ℚ)
          = lits cur.expr + (((cur.numbers.erase n : List ℚ) : Multiset ℚ) + {n}) := by
            simp only [lits]
            abel
        _ = lits cur.expr + (cur.numbers : Multiset ℚ) := by
            rw [erase_add_singleton cur.numbers n hn]
        _ ≤ M := hbud
    obtain ⟨q1, b1, m1, tr1, heq1, hq1, hb1, hc1, hm1⟩ :=
      emplaceM_master (cloneAndFill cur.expr (.Lit n)) t (cur.numbers.erase n) q h best mem
        um uu M hM hchildbud hq hb hcons hmem
    obtain ⟨q2, b2, m2, tr2, heq2, hq2, hb2, hc2, hm2⟩ :=
      expandNums_master t cur h um uu M hM hsz hbud rest q1 b1 m1
        (fun m hm => hmemb m (List.mem_cons_of_mem n hm)) hq1 hb1 hc1 hm1
    exact ⟨q2, b2, m2, tr1 ++ tr2, by simp [expandNums, heq1, heq2], hq2, hb2, hc2, hm2⟩

/-- The operator expansion of one popped node keeps every invariant. -/
theorem expandOps_master (t : ℤ) (cur : Node) (h : Expr → ℚ) (um uu : Bool)
    (M : Multiset ℚ) (hM : M.Nodup) (hsz : 0 < size cur.expr)
    (hbud : lits cur.expr + (cur.numbers : Multiset ℚ) ≤ M) :
    ∀ ops q best mem, QInv M q → lits best.expr ≤ M → consistentB best → MemInv mem →
    ∃ q2 b2 m2 tr, expandOps t cur h um uu ops q best mem = .ok (q2, b2, m2, tr) ∧
      QInv M q2 ∧ lits b2.expr ≤ M ∧ consistentB b2 ∧ MemInv m2
  | [], q, best, mem, hq, hb, hcons, hmem => ⟨q, best, mem, [], rfl, hq, hb, hcons, hmem⟩
  | c :: rest, q, best, mem, hq, hb, hcons, hmem => by
    have hchildbud : lits (cloneAndFill cur.expr (.Op c .Open .Open)) +
        (cur.numbers : Multiset ℚ) ≤ M := by
      rw [cloneAndFill_lits cur.expr (.Op c .Open .Open) hsz]
      simpa [lits] using hbud
    obtain ⟨q1, b1, m1, tr1, heq1, hq1, hb1, hc1, hm1⟩ :=
      emplaceM_master (cloneAndFill cur.expr (.Op c .Open .Open)) t cur.numbers q h best mem
        um uu M hM hchildbud hq hb hcons hmem
    obtain ⟨q2, b2, m2, tr2, heq2, hq2, hb2, hc2, hm2⟩ :=
      expandOps_master t cur h um uu M hM hsz hbud rest q1 b1 m1 hq1 hb1 hc1 hm1
    exact ⟨q2, b2, m2, tr1 ++ tr2, by simp [expandOps, heq1, heq2], hq2, hb2, hc2, hm2⟩

/-- The master property of the astar loop. -/
theorem astarLoop_master : ∀ (fuel : Nat) (t : ℤ) (h : Expr → ℚ) (um uu : Bool)
    (q : Queue) (best : Best) (mem : Mem) (M : Multiset ℚ), M.Nodup → QInv M q →
    lits best.expr ≤ M → consistentB best → MemInv mem →
    astarLoop t h um uu fuel q best mem = none ∨
    ∃ b tr, astarLoop t h um uu fuel q best mem = some (.ok (b, tr)) ∧
      lits b.expr ≤ M ∧ consistentB b
  | 0, _, _, _, _, _, _, _, _, _, _, _, _, _ => .inl rfl
  | fuel + 1, t, h, um, uu, q, best, mem, M, hM, hq, hb, hcons, hmem => by
    by_cases hstop : q = [] ∨ best.value = (t : ℚ)
    · right
      exact ⟨best, [], by simp [astarLoop, hstop], hb, hcons⟩
    · have hqne : q ≠ [] := by
        intro hq0
        exact hstop (.inl hq0)
      obtain ⟨cur, q1, hpop⟩ := popMin_of_ne_nil q hqne
      obtain ⟨hcur, hq1sub⟩ := popMin_sub q cur q1 hpop
      obtain ⟨hcurne, hcurbud⟩ := hq cur hcur
      have hq1 : QInv M q1 := fun x hx => hq x (hq1sub x hx)
      have hsz : 0 < size cur.expr := by
        rcases Nat.eq_zero_or_pos (size cur.expr) with h0 | hpos
        · exact absurd ((evaluable_iff_size cur.expr).mpr h0) (by simp [hcurne])
        · exact hpos
      have hprobe : (if um && size cur.expr == 1 then
            probeStep (t : ℚ) cur.expr cur.numbers mem else .ok none) = .ok none ∨
          ∃ b, (if um && size cur.expr == 1 then
            probeStep (t : ℚ) cur.expr cur.numbers mem else .ok none) = .ok (some b) ∧
            lits b.expr ≤ M ∧ consistentB b := by
        by_cases hg : (um && size cur.expr == 1) = true
        · simp only [hg, if_true]
          simp only [Bool.and_eq_true, beq_iff_eq] at hg
          exact probeStep_master (t : ℚ) cur.expr cur.numbers mem M hM hcurbud hg.2 hmem
        · left
          simp [hg]
      rcases hprobe with hpass | ⟨pb, hpb, hpl, hpc⟩
      · simp only [Bool.and_eq_true, beq_iff_eq] at hpass
        obtain ⟨q2, b2, m2, tr2, heq2, hq2, hb2, hc2, hm2⟩ :=
          expandNums_master t cur h um uu M hM hsz hcurbud cur.numbers q1 best mem
            (fun _ hm => hm) hq1 hb hcons hmem
        have hops : ∃ q3 b3 m3 tr3,
            (if size cur.expr < cur.numbers.length then
              expandOps t cur h um uu [.add, .sub, .mul, .div] q2 b2 m2
            else .ok (q2, b2, m2, [])) = .ok (q3, b3, m3, tr3) ∧
            QInv M q3 ∧ lits b3.expr ≤ M ∧ consistentB b3 ∧ MemInv m3 := by
          by_cases hroom : size cur.expr < cur.numbers.length
          · simp only [hroom, if_true]
            exact expandOps_master t cur h um uu M hM hsz hcurbud _ q2 b2 m2 hq2 hb2 hc2 hm2
          · exact ⟨q2, b2, m2, [], by simp [hroom], hq2, hb2, hc2, hm2⟩
        obtain ⟨q3, b3, m3, tr3, heq3, hq3, hb3, hc3, hm3⟩ := hops
        rcases astarLoop_master fuel t h um uu q3 b3 m3 M hM hq3 hb3 hc3 hm3 with
          hnone | ⟨bf, trf, heqf, hbf, hcf⟩
        · left
          simp [astarLoop, hstop, hpop, hpass, heq2, heq3, hnone]
        · right
          exact ⟨bf, tr2 ++ tr3 ++ trf,
            by simp [astarLoop, hstop, hpop, hpass, heq2, heq3, heqf], hbf, hcf⟩
      · simp only [Bool.and_eq_true, beq_iff_eq] at hpb
        right
        exact ⟨pb, [pb.value], by simp [astarLoop, hstop, hpop, hpb], hpl, hpc⟩

/-- The master property of an astar run from the entry point. -/
theorem astarT_master (fuel : Nat) (t : ℤ) (ns : List ℚ) (h : Expr → ℚ) (um uu : Bool)
    (hnd : ns.Nodup) :
    astarT fuel t ns h um uu = none ∨
    ∃ b tr, astarT fuel t ns h um uu = some (.ok (b, tr)) ∧
      lits b.expr ≤ (ns : Multiset ℚ) ∧ consistentB b := by
  have hq : QInv (ns : Multiset ℚ) [⟨.Open, h .Open, ns⟩] := by
    intro nd hnd2
    rcases List.mem_singleton.mp hnd2 with rfl
    exact ⟨rfl, by simp [lits]⟩
  exact astarLoop_master fuel t h um uu [⟨.Open, h .Open, ns⟩] defaultBest memEmpty
    (ns : Multiset ℚ) (by simpa using hnd) hq (by simp [defaultBest, lits])
    consistentB_defaultBest memInv_empty

/-
The inverse-solve functions really invert evaluation, under the nonzero
side conditions of reqSafe.
-/

theorem opEval_solveRight (c : BinOp) (lv t : ℚ) (hmul : c = .mul → lv ≠ 0)
    (hdiv : c = .div → lv ≠ 0 ∧ t ≠ 0) :
    opEval c lv (solveRight c t lv) = .ok t := by
  cases c with
  | add =>
    simp only [opEval, solveRight, qAdd_eq, qSub_eq, Except.ok.injEq]
    ring
  | sub =>
    simp only [opEval, solveRight, qSub_eq, Except.ok.injEq]
    ring
  | mul =>
    have hlv : lv ≠ 0 := hmul rfl
    simp only [opEval, solveRight, qMul_eq, qDiv_eq, Except.ok.injEq]
    field_simp
  | div =>
    obtain ⟨hlv, ht⟩ := hdiv rfl
    have hne2 : lv / t ≠ 0 := div_ne_zero hlv ht
    have hval : lv / (lv / t) = t := by
      field_simp
    simp only [opEval, solveRight, qDiv_eq, hval]
    rw [if_neg hne2]

theorem opEval_solveLeft (c : BinOp) (rv t : ℚ) (hmul : c = .mul → rv ≠ 0)
    (hdiv : c = .div → rv ≠ 0) :
    opEval c (solveLeft c t rv) rv = .ok t := by
  cases c with
  | add =>
    simp only [opEval, solveLeft, qAdd_eq, qSub_eq, Except.ok.injEq]
    ring
  | sub =>
    simp only [opEval, solveLeft, qSub_eq, qAdd_eq, Except.ok.injEq]
    ring
  | mul =>
    have hrv : rv ≠ 0 := hmul rfl
    simp only [opEval, solveLeft, qMul_eq, qDiv_eq, Except.ok.injEq]
    field_simp
  | div =>
    have hrv : rv ≠ 0 := hdiv rfl
    simp only [opEval, solveLeft, hrv, if_false, qDiv_eq, qMul_eq, Except.ok.injEq]
    field_simp

/-- Successful evaluation of an operator node implies successful
evaluation of both children. -/
theorem eval_op_ok (c : BinOp) (l r : Expr) (v : ℚ) (h : eval (.Op c l r) = .ok v) :
    (∃ a, eval l = .ok a) ∧ ∃ b, eval r = .ok b := by
  rcases hel : eval l with er | a
  · rw [eval, hel] at h
    simp [exBindError] at h
  · rcases her : eval r with er | b
    · rw [eval, hel, her] at h
      simp [exBindOk, exBindError] at h
    · exact ⟨⟨a, rfl⟩, ⟨b, rfl⟩⟩

/-- On a tree without holes whose evaluation succeeds, required descends
to a literal and raises RequiredLiteralNode. -/
theorem required_zero_holes : ∀ e : Expr, size e = 0 → ∀ (t v : ℚ), eval e = .ok v →
    required e t = .error .requiredLiteralNode
  | .Open, h, _, _, _ => by simp [size] at h
  | .Lit _, _, _, _, _ => rfl
  | .Op c l r, h, t, v, hv => by
    simp only [size, Nat.add_eq_zero] at h
    obtain ⟨⟨a, ha⟩, ⟨b, hb⟩⟩ := eval_op_ok c l r v hv
    have hle : evaluable l = true := (evaluable_iff_size l).mpr h.1
    rw [required, if_pos hle, ha, exBindOk]
    exact required_zero_holes r h.2 (solveRight c t a) b hb

/-- Filling the single hole with the required value makes the tree
evaluate exactly to the target, under the reqSafe side conditions. -/
theorem fillRequired_exact : ∀ (e : Expr) (t : ℚ), size e = 1 → reqSafe e t = true →
    fillRequiredEval e t = .ok t
  | .Open, t, _, _ => by
    simp [fillRequiredEval, required, cloneAndFill, fillAux, eval, Except.bind]
  | .Lit v, t, h, _ => by simp [size] at h
  | .Op c l r, t, h, hsafe => by
    simp only [size] at h
    by_cases hle : evaluable l = true
    · have hl0 : size l = 0 := (evaluable_iff_size l).mp hle
      have hr1 : size r = 1 := by omega
      rcases hel : eval l with er | lv
      · rw [reqSafe, if_pos hle, hel] at hsafe
        simp at hsafe
      · rw [reqSafe, if_pos hle, hel, Bool.and_eq_true] at hsafe
        obtain ⟨hcond, hrs⟩ := hsafe
        have hmul : c = .mul → lv ≠ 0 := by
          intro hc
          subst hc
          simpa using hcond
        have hdiv : c = .div → lv ≠ 0 ∧ t ≠ 0 := by
          intro hc
          subst hc
          simpa [Bool.and_eq_true] using hcond
        have hIH := fillRequired_exact r (solveRight c t lv) hr1 hrs
        rw [fillRequiredEval] at hIH
        rcases hreq : required r (solveRight c t lv) with er | rr
        · rw [hreq] at hIH
          simp [Except.bind] at hIH
        · rw [hreq] at hIH
          have heval2 : eval (cloneAndFill r (.Lit rr)) = .ok (solveRight c t lv) := by
            simpa [Except.bind] using hIH
          have hreqe : required (.Op c l r) t = .ok rr := by
            rw [required, if_pos hle, hel, exBindOk, hreq]
          have hfill : cloneAndFill (.Op c l r) (.Lit rr) =
              .Op c l (cloneAndFill r (.Lit rr)) := by
            simp [cloneAndFill, fillAux, fillAux_size_zero l (.Lit rr) hl0 false]
          rw [fillRequiredEval, hreqe, exBindOkB, hfill, eval, hel, exBindOk, heval2,
            exBindOk]
          exact opEval_solveRight c lv t hmul hdiv
    · have hl1 : size l = 1 := by
        rcases Nat.eq_zero_or_pos (size l) with h0 | hpos
        · exact absurd ((evaluable_iff_size l).mpr h0) hle
        · omega
      have hr0 : size r = 0 := by omega
      have hre : evaluable r = true := (evaluable_iff_size r).mpr hr0
      rcases her : eval r with er | rv
      · rw [reqSafe, if_neg hle, her] at hsafe
        simp at hsafe
      · rw [reqSafe, if_neg hle, her, Bool.and_eq_true] at hsafe
        obtain ⟨hcond, hrs⟩ := hsafe
        have hmul : c = .mul → rv ≠ 0 := by
          intro hc
          subst hc
          simpa using hcond
        have hdiv : c = .div → rv ≠ 0 := by
          intro hc
          subst hc
          simpa using hcond
        have hIH := fillRequired_exact l (solveLeft c t rv) hl1 hrs
        rw [fillRequiredEval] at hIH
        rcases hreq : required l (solveLeft c t rv) with er | rl
        · rw [hreq] at hIH
          simp [Except.bind] at hIH
        · rw [hreq] at hIH
          have heval2 : eval (cloneAndFill l (.Lit rl)) = .ok (solveLeft c t rv) := by
            simpa [Except.bind] using hIH
          have hreqe : required (.Op c l r) t = .ok rl := by
            rw [required, if_neg hle, her, exBindOk, hreq]
          have hfill : cloneAndFill (.Op c l r) (.Lit rl) =
              .Op c (cloneAndFill l (.Lit rl)) r := by
            have hdone := (fillAux_of_pos l (.Lit rl) (by omega)).1
            simp [cloneAndFill, fillAux, hdone, fillAux_done r (.Lit rl)]
          rw [fillRequiredEval, hreqe, exBindOkB, hfill, eval, heval2, exBindOk, her,
            exBindOk]
          exact opEval_solveLeft c rv t hmul hdiv

/-
The std::set model: inserting an element already present changes
nothing.
-/

theorem insertUnique_mem : ∀ (s : List ℚ) (x y : ℚ), y ∈ insertUnique x s ↔ y = x ∨ y ∈ s
  | [], x, y => by simp [insertUnique]
  | z :: zs, x, y => by
    rw [insertUnique]
    by_cases h1 : x < z
    · rw [if_pos h1]
      simp [List.mem_cons]
    · rw [if_neg h1]
      by_cases h2 : x = z
      · rw [if_pos h2]
        subst h2
        simp [List.mem_cons]
      · rw [if_neg h2]
        simp only [List.mem_cons, insertUnique_mem zs x y]
        tauto

theorem insertUnique_sorted : ∀ (s : List ℚ) (x : ℚ), s.Sorted (· < ·) →
    (insertUnique x s).Sorted (· < ·)
  | [], x, _ => by simp [insertUnique]
  | z :: zs, x, hs => by
    rw [List.sorted_cons] at hs
    rw [insertUnique]
    by_cases h1 : x < z
    · rw [if_pos h1]
      rw [List.sorted_cons]
      refine ⟨?_, by rw [List.sorted_cons]; exact hs⟩
      intro b hb
      rcases List.mem_cons.mp hb with rfl | hb
      · exact h1
      · exact lt_trans h1 (hs.1 b hb)
    · rw [if_neg h1]
      by_cases h2 : x = z
      · rw [if_pos h2, List.sorted_cons]
        exact hs
      · rw [if_neg h2, List.sorted_cons]
        have hzx : z < x := by
          rcases lt_trichotomy x z with h | h | h
          · exact absurd h h1
          · exact absurd h h2
          · exact h
        refine ⟨?_, insertUnique_sorted zs x hs.2⟩
        intro b hb
        rcases (insertUnique_mem zs x b).mp hb with rfl | hb
        · exact hzx
        · exact hs.1 b hb

theorem insertUnique_of_mem : ∀ (s : List ℚ) (x : ℚ), x ∈ s → s.Sorted (· < ·) →
    insertUnique x s = s
  | [], x, hx, _ => by cases hx
  | z :: zs, x, hx, hs => by
    rw [List.sorted_cons] at hs
    rcases List.mem_cons.mp hx with rfl | hx
    · rw [insertUnique, if_neg (lt_irrefl x), if_pos rfl]
    · have hzx : z < x := hs.1 x hx
      rw [insertUnique, if_neg (not_lt.mpr (le_of_lt hzx)), if_neg (ne_of_gt hzx),
        insertUnique_of_mem zs x hx hs.2]

theorem numbersSet_fold_sorted : ∀ (l acc : List ℚ), acc.Sorted (· < ·) →
    (List.foldl (fun acc x => insertUnique x acc) acc l).Sorted (· < ·)
  | [], _, h => h
  | x :: xs, acc, h =>
    numbersSet_fold_sorted xs (insertUnique x acc) (insertUnique_sorted acc x h)

theorem numbersSet_fold_mem : ∀ (l acc : List ℚ) (y : ℚ),
    y ∈ List.foldl (fun acc x => insertUnique x acc) acc l ↔ y ∈ acc ∨ y ∈ l
  | [], _, y => by simp
  | x :: xs, acc, y => by
    rw [List.foldl_cons, numbersSet_fold_mem xs (insertUnique x acc) y, insertUnique_mem]
    simp [List.mem_cons]
    tauto

theorem numbersSet_sorted (l : List ℚ) : (numbersSet l).Sorted (· < ·) :=
  numbersSet_fold_sorted l [] (by simp)

theorem numbersSet_mem (l : List ℚ) (y : ℚ) : y ∈ numbersSet l ↔ y ∈ l := by
  rw [numbersSet, numbersSet_fold_mem]
  simp

/-- Appending a duplicate to the driver input leaves the constructed set
unchanged: two equal source numbers are one slot, not two. -/
theorem numbersSet_append_dup (l : List ℚ) (n : ℚ) (h : n ∈ l) :
    numbersSet (l ++ [n]) = numbersSet l := by
  rw [numbersSet, List.foldl_append, List.foldl_cons, List.foldl_nil]
  exact insertUnique_of_mem (numbersSet l) n ((numbersSet_mem l n).mpr h)
    (numbersSet_sorted l)

/-
The pruned-tree characterization of evaluate_missing.
-/

/-- The pruned tree is always a single literal. -/
theorem pruneMissing_lit : ∀ e : Expr, ∃ v : ℚ, pruneMissing e = .Lit v
  | .Open => ⟨0, rfl⟩
  | .Lit v => ⟨v, rfl⟩
  | .Op c l r => by
    rw [pruneMissing]
    by_cases hl : isOpenT l = true
    · obtain ⟨v, hv⟩ := pruneMissing_lit r
      exact ⟨v, by rw [if_pos hl, hv]⟩
    · by_cases hr : isOpenT r = true
      · obtain ⟨v, hv⟩ := pruneMissing_lit l
        exact ⟨v, by rw [if_neg hl, if_pos hr, hv]⟩
      · exact ⟨0, by rw [if_neg hl, if_neg hr]⟩

/-- evaluate_missing is exactly the ordinary evaluation of the pruned
tree. -/
theorem eval_pruneMissing : ∀ e : Expr, eval (pruneMissing e) = .ok (evaluateMissing e)
  | .Open => rfl
  | .Lit v => rfl
  | .Op c l r => by
    rw [pruneMissing, evaluateMissing]
    by_cases hl : isOpenT l = true
    · rw [if_pos hl, if_pos hl]
      exact eval_pruneMissing r
    · by_cases hr : isOpenT r = true
      · rw [if_neg hl, if_neg hl, if_pos hr, if_pos hr]
        exact eval_pruneMissing l
      · rw [if_neg hl, if_neg hl, if_neg hr, if_neg hr]
        rfl

/-
Early-exit behaviour once the running best is exact.
-/

/-- A dfs call entered with a best whose value already equals an integer
target returns that same best, and the already-started leftmost descent
constructs at most one further candidate before the lucky stop fires. -/
theorem dfsT_exact_entry : ∀ (fuel : Nat) (i : ℤ) (e : Expr) (ns : List ℚ) (best : Best)
    (b : Best) (tr : List ℚ), best.value = (i : ℚ) →
    dfsT fuel e ((i : ℤ) : ℚ) ns best = some (.ok (b, tr)) → b = best ∧ tr.length ≤ 1
  | 0, i, e, ns, best, b, tr, hbv => by
    intro hres
    simp [dfsT] at hres
  | fuel + 1, i, e, ns, best, b, tr, hbv => by
    intro hres
    have hbet : ∀ cur : Best, better cur best (truncQ ((i : ℤ) : ℚ)) = false := by
      intro cur
      rw [truncQ_intCast]
      exact better_exact_false cur best i hbv
    by_cases hleaf : (ns.isEmpty && evaluable e) = true
    · simp only [Bool.and_eq_true] at hleaf
      rcases hm : mkBest e with er | cur
      · rw [dfsT, if_pos (by simp [hleaf.1, hleaf.2]), hm] at hres
        simp at hres
      · rw [dfsT, if_pos (by simp [hleaf.1, hleaf.2]), hm] at hres
        simp only [hbet cur, Bool.false_eq_true, if_false, Option.some.injEq,
          Except.ok.injEq, Prod.mk.injEq] at hres
        exact ⟨hres.1.symm, by rw [← hres.2]; simp⟩
    · by_cases hrec : (!ns.isEmpty && !evaluable e) = true
      · simp only [Bool.and_eq_true, Bool.not_eq_true'] at hrec
        rcases ns with _ | ⟨n, rest⟩
        · simp at hrec
        · rcases hch : dfsT fuel (cloneAndFill e (.Lit n)) ((i : ℤ) : ℚ) ((n :: rest).erase n)
              best with _ | res1
          · rw [dfsT, if_neg hleaf, if_pos (by simp [hrec.2]),
              dfsLoopNums, hch] at hres
            simp at hres
          · rcases res1 with er | ⟨opt, tr1⟩
            · rw [dfsT, if_neg hleaf, if_pos (by simp [hrec.2]),
                dfsLoopNums, hch] at hres
              simp at hres
            · obtain ⟨hopteq, htr1⟩ := dfsT_exact_entry fuel i _ _ best opt tr1 hbv hch
              have hfwd : dfsT (fuel + 1) e ((i : ℤ) : ℚ) (n :: rest) best =
                  some (.ok (best, tr1)) := by
                rw [dfsT, if_neg hleaf, if_pos (by simp [hrec.2]),
                  dfsLoopNums, hch]
                simp [hopteq, hbet best, hbv]
              rw [hfwd] at hres
              simp only [Option.some.injEq, Except.ok.injEq, Prod.mk.injEq] at hres
              exact ⟨hres.1.symm, hres.2 ▸ htr1⟩
      · rw [dfsT, if_neg (by simpa using hleaf), if_neg (by simpa using hrec)] at hres
        simp only [Option.some.injEq, Except.ok.injEq, Prod.mk.injEq] at hres
        exact ⟨hres.1.symm, by rw [← hres.2]; simp⟩

/-- The astar loop entered with a best whose value already equals the
target exits immediately: no node is popped, no candidate constructed. -/
theorem astarLoop_exact_entry (fuel : Nat) (t : ℤ) (h : Expr → ℚ) (um uu : Bool)
    (q : Queue) (best : Best) (mem : Mem) (hbv : best.value = (t : ℚ)) :
    astarLoop t h um uu (fuel + 1) q best mem = some (.ok (best, [])) := by
  rw [astarLoop, if_pos (.inr hbv)]

/-
Behaviour at target zero: the default best is already exact.
-/

theorem defaultBest_value_int : defaultBest.value = ((0 : ℤ) : ℚ) := by
  simp [defaultBest]

/-- dfs at target 0 on a nonempty numbers list: the first recursive child
runs (a singleton list scores the one-literal candidate, a longer list
dead-ends) and the lucky stop then returns the default best. -/
theorem dfsT_target_zero (fuel : Nat) (n : ℚ) (rest : List ℚ) :
    ∃ tr : List ℚ, dfsT (fuel + 2) .Open 0 (n :: rest) defaultBest =
      some (.ok (defaultBest, tr)) ∧ tr.length ≤ 1 := by
  have hbet : ∀ cur : Best, better cur defaultBest (truncQ (0 : ℚ)) = false := by
    intro cur
    have h0 : truncQ (0 : ℚ) = ((0 : ℤ) : ℤ) := by
      have : ((0 : ℤ) : ℚ) = (0 : ℚ) := by norm_num
      rw [← this, truncQ_intCast]
    rw [h0]
    exact better_exact_false cur defaultBest 0 defaultBest_value_int
  have hchild : ∃ trc : List ℚ, dfsT (fuel + 1) (.Lit n) 0 rest defaultBest =
      some (.ok (defaultBest, trc)) ∧ trc.length ≤ 1 := by
    rcases rest with _ | ⟨r, rs⟩
    · refine ⟨[n], ?_, by simp⟩
      have hm : mkBest (.Lit n) = .ok ⟨.Lit n, n⟩ := by simp [mkBest, eval]
      rw [dfsT, if_pos (by simp [evaluable]), hm]
      simp [hbet ⟨.Lit n, n⟩]
    · refine ⟨[], ?_, by simp⟩
      rw [dfsT, if_neg (by simp [evaluable]), if_neg (by simp [evaluable])]
  obtain ⟨trc, hc, hlen⟩ := hchild
  refine ⟨trc, ?_, hlen⟩
  rw [dfsT, if_neg (by simp [evaluable]), if_pos (by simp [evaluable]), dfsLoopNums]
  have hfill : cloneAndFill .Open (.Lit n) = .Lit n := rfl
  have herase : (n :: rest).erase n = rest := by simp
  rw [hfill, herase, hc]
  simp [hbet defaultBest, defaultBest]

/-- dfs_mem at target 0 on a nonempty numbers list behaves like dfs: the
root memo probe misses on the empty table, the first child either scores
one candidate or dead-ends (possibly recording one memo entry), and the
lucky stop returns the default best. -/
theorem dfsMemT_target_zero (fuel : Nat) (n : ℚ) (rest : List ℚ) :
    ∃ (m : Mem) (tr : List ℚ), dfsMemT (fuel + 2) .Open 0 (n :: rest) defaultBest memEmpty =
      some (.ok (defaultBest, m, tr)) ∧ tr.length ≤ 1 := by
  have hbet : ∀ cur : Best, better cur defaultBest (truncQ (0 : ℚ)) = false := by
    intro cur
    have h0 : truncQ (0 : ℚ) = ((0 : ℤ) : ℤ) := by
      have : ((0 : ℤ) : ℚ) = (0 : ℚ) := by norm_num
      rw [← this, truncQ_intCast]
    rw [h0]
    exact better_exact_false cur defaultBest 0 defaultBest_value_int
  have hchild : ∃ (mc : Mem) (trc : List ℚ),
      dfsMemT (fuel + 1) (.Lit n) 0 rest defaultBest memEmpty =
        some (.ok (defaultBest, mc, trc)) ∧ trc.length ≤ 1 := by
    rcases rest with _ | ⟨r, rs⟩
    · refine ⟨memEmpty, [n], ?_, by simp⟩
      have hm : mkBest (.Lit n) = .ok ⟨.Lit n, n⟩ := by simp [mkBest, eval]
      rw [dfsMemT, if_pos (by simp [evaluable]), hm]
      simp [hbet ⟨.Lit n, n⟩]
    · refine ⟨memInsert memEmpty (litFinset (.Lit n)) n (.Lit n), [], ?_, by simp⟩
      rw [dfsMemT, if_neg (by simp [evaluable]), if_pos (by simp [evaluable])]
      have hv : eval (.Lit n) = .ok n := rfl
      rw [hv]
  obtain ⟨mc, trc, hc, hlen⟩ := hchild
  refine ⟨mc, trc, ?_, hlen⟩
  have hprobe : probeStep 0 .Open (n :: rest) memEmpty = .ok none := by
    simp [probeStep, required, memEmpty]
  rw [dfsMemT, if_neg (by simp [evaluable]), if_neg (by simp [evaluable]),
    if_pos (by simp [evaluable])]
  rw [show (size Expr.Open == 1) = true by rfl]
  simp only [if_true, hprobe]
  rw [dfsMemLoopNums]
  have hfill : cloneAndFill .Open (.Lit n) = .Lit n := rfl
  have herase : (n :: rest).erase n = rest := by simp
  rw [hfill, herase, hc]
  simp [hbet defaultBest, defaultBest]

/-
The claims.
-/

/-- C1 counterexample: the strategies do not always agree.  For target 4
and numbers {2, 4} two complete candidates tie at distance 2 (values 6
and 2); exhaustive dfs finds and keeps 6, while the informed search
without deduplication, driven by a heuristic that explores subtraction
first, finds and keeps 2. -/
theorem c1_strategy_agreement_counterexample :
    resValue (dfsT 10 .Open 4 [2, 4] defaultBest) = some 6 ∧
    resValue (astarT 30 4 [2, 4] hSubFirst false false) = some 2 ∧
    (6 : ℚ) ≠ 2 := by
  refine ⟨by decide, by decide, by decide⟩

/-- C1 amended: agreement is not guaranteed in general (exploration
order decides among candidates tied in distance to the target), but on
the concrete scenario of the spec, target 6 with numbers {2, 3}, the
exhaustive, memoized, and informed-without-dedup strategies (the latter
with the remaining-count heuristic of the driver) all report the same
best value 6. -/
theorem c1_strategy_agreement_amended :
    resValue (dfsT 10 .Open 6 [2, 3] defaultBest) = some 6 ∧
    resValueMem (dfsMemT 10 .Open 6 [2, 3] defaultBest memEmpty) = some 6 ∧
    resValue (astarT 30 6 [2, 3] (hCount 2) false false) = some 6 := by
  refine ⟨by decide, by decide, by decide⟩

/-- C2 counterexample: the numbers collection of the code is a std::set,
not a multiset.  Building the set from the input 5, 5 collapses the
duplicate to the single slot 5, and an exhaustive search for target 25
then returns best value 5; had the two fives been independent slots (the
raw two-element list), the same search would reach 5 * 5 = 25. -/
theorem c2_multiset_counterexample :
    numbersSet [5, 5] = [5] ∧
    resValue (dfsT 10 .Open 25 (numbersSet [5, 5]) defaultBest) = some 5 ∧
    resValue (dfsT 10 .Open 25 [5, 5] defaultBest) = some 25 := by
  refine ⟨by decide, by decide, by decide⟩

/-- C2 amended: the collection of source numbers is a set; a duplicate
appended to the driver input collapses into the existing slot and the
search is unchanged. -/
theorem c2_multiset_amended (fuel : Nat) (t : ℚ) (l : List ℚ) (n : ℚ) (best : Best)
    (h : n ∈ l) :
    dfsT fuel .Open t (numbersSet (l ++ [n])) best = dfsT fuel .Open t (numbersSet l) best := by
  rw [numbersSet_append_dup l n h]

theorem c2_multiset_amended_witness :
    (5 : ℚ) ∈ [(5 : ℚ)] ∧
    dfsT 3 .Open 25 (numbersSet ([5] ++ [5])) defaultBest =
      dfsT 3 .Open 25 (numbersSet [5]) defaultBest :=
  ⟨by decide, c2_multiset_amended 3 25 [5] 5 defaultBest (by decide)⟩

/-- C3 counterexample: a search can return the default candidate, whose
bare Open tree does not re-evaluate successfully: dfs on an empty
numbers list returns the default best and evaluating its tree raises
OpenNodeEvaluation. -/
theorem c3_value_consistency_counterexample :
    dfsT 1 .Open 5 [] defaultBest = some (.ok (defaultBest, [])) ∧
    eval defaultBest.expr = .error .openNodeEval :=
  ⟨rfl, rfl⟩

/-- C3 amended: for every candidate returned by any strategy,
re-evaluating its tree yields exactly the reported value, except for the
default candidate (a bare Open of value 0) and division-by-zero
candidates (value forced to 0). -/
theorem c3_value_consistency_amended :
    (∀ (fuel : Nat) (t : ℚ) (ns : List ℚ) (b : Best) (tr : List ℚ),
      dfsT fuel .Open t ns defaultBest = some (.ok (b, tr)) → consistentB b) ∧
    (∀ (fuel : Nat) (t : ℚ) (ns : List ℚ) (b : Best) (m : Mem) (tr : List ℚ), ns.Nodup →
      dfsMemT fuel .Open t ns defaultBest memEmpty = some (.ok (b, m, tr)) → consistentB b) ∧
    (∀ (fuel : Nat) (t : ℤ) (ns : List ℚ) (h : Expr → ℚ) (um uu : Bool) (b : Best)
      (tr : List ℚ), ns.Nodup →
      astarT fuel t ns h um uu = some (.ok (b, tr)) → consistentB b) := by
  refine ⟨?_, ?_, ?_⟩
  · intro fuel t ns b tr hres
    rcases dfsT_master fuel t (ns : Multiset ℚ) .Open ns defaultBest (by simp [lits])
      (by simp [defaultBest, lits]) consistentB_defaultBest with hnone | ⟨b2, tr2, heq, _, hc2⟩
    · have hnone2 : dfsT fuel .Open t ns defaultBest = none := hnone
      rw [hnone2] at hres
      cases hres
    · have heq2 : dfsT fuel .Open t ns defaultBest = some (.ok (b2, tr2)) := heq
      rw [heq2] at hres
      simp only [Option.some.injEq, Except.ok.injEq, Prod.mk.injEq] at hres
      exact hres.1 ▸ hc2
  · intro fuel t ns b m tr hnd hres
    rcases dfsMemT_master fuel t (ns : Multiset ℚ) (by simpa using hnd) .Open ns defaultBest
      memEmpty (by simp [lits]) (by simp [defaultBest, lits]) consistentB_defaultBest
      memInv_empty with hnone | ⟨b2, m2, tr2, heq, _, hc2, _⟩
    · have hnone2 : dfsMemT fuel .Open t ns defaultBest memEmpty = none := hnone
      rw [hnone2] at hres
      cases hres
    · have heq2 : dfsMemT fuel .Open t ns defaultBest memEmpty = some (.ok (b2, m2, tr2)) := heq
      rw [heq2] at hres
      simp only [Option.some.injEq, Except.ok.injEq, Prod.mk.injEq] at hres
      exact hres.1 ▸ hc2
  · intro fuel t ns h um uu b tr hnd hres
    rcases astarT_master fuel t ns h um uu hnd with hnone | ⟨b2, tr2, heq, _, hc2⟩
    · rw [hnone] at hres
      cases hres
    · rw [heq] at hres
      simp only [Option.some.injEq, Except.ok.injEq, Prod.mk.injEq] at hres
      exact hres.1 ▸ hc2

theorem c3_value_consistency_amended_witness :
    dfsT 3 .Open 25 [5] defaultBest = some (.ok (⟨.Lit 5, 5⟩, [5])) ∧
    consistentB ⟨.Lit 5, 5⟩ :=
  ⟨by decide, c3_value_consistency_amended.1 3 25 [5] ⟨.Lit 5, 5⟩ [5] (by decide)⟩

/-- C4 counterexample: an addition node whose left canonical key exceeds
the right one is nevertheless pushed to the frontier under canonical
deduplication: for the node + . 2 (left child a hole with key o, right
child the literal with key 2, and the key of the literal is smaller), the
sorted check of the Op Add specialization passes and emplace pushes it. -/
theorem c4_dedup_counterexample :
    sorted (.Op .add .Open (.Lit 2)) = true ∧
    orderKey (.Lit 2) < orderKey .Open ∧
    (emplaceM (.Op .add .Open (.Lit 2)) 4 [9] [] (fun _ => 0) defaultBest memEmpty
      false true).map (fun x => x.1) = .ok [⟨.Op .add .Open (.Lit 2), 0, [9]⟩] := by
  refine ⟨by decide, ?_, by decide⟩
  have h2 : orderKey (.Lit 2) = "2" := rfl
  have ho : orderKey .Open = "o" := rfl
  rw [h2, ho, String.lt_iff_toList_lt]
  exact List.Lex.rel (by decide)

/-- C4 amended: under canonical deduplication a non-evaluable addition
node is pushed whenever both children are recursively canonical (the
Op Add specialization performs no key comparison); a multiplication node
additionally requires the left key to be strictly smaller than the right
key; subtraction and division nodes are never subject to the comparison. -/
theorem c4_dedup_amended (l r : Expr) (t : ℤ) (ns : List ℚ) (q : Queue) (h : Expr → ℚ)
    (best : Best) (mem : Mem) (um : Bool) :
    (evaluable (.Op .add l r) = false →
      emplaceM (.Op .add l r) t ns q h best mem um true =
        .ok ((if sorted l && sorted r then q ++ [⟨.Op .add l r, h (.Op .add l r), ns⟩]
          else q), best, mem, [])) ∧
    (evaluable (.Op .mul l r) = false →
      emplaceM (.Op .mul l r) t ns q h best mem um true =
        .ok ((if sorted l && sorted r && decide (orderKey l < orderKey r) then
          q ++ [⟨.Op .mul l r, h (.Op .mul l r), ns⟩] else q), best, mem, [])) ∧
    (evaluable (.Op .sub l r) = false →
      emplaceM (.Op .sub l r) t ns q h best mem um true =
        .ok ((if sorted l && sorted r then q ++ [⟨.Op .sub l r, h (.Op .sub l r), ns⟩]
          else q), best, mem, [])) ∧
    (evaluable (.Op .div l r) = false →
      emplaceM (.Op .div l r) t ns q h best mem um true =
        .ok ((if sorted l && sorted r then q ++ [⟨.Op .div l r, h (.Op .div l r), ns⟩]
          else q), best, mem, [])) := by
  refine ⟨?_, ?_, ?_, ?_⟩
  · intro hne
    rw [emplaceM, if_neg (by simp [hne]), if_pos rfl,
      show sorted (.Op .add l r) = (sorted l && sorted r) from rfl]
    by_cases hcond : (sorted l && sorted r) = true
    · rw [if_pos hcond, if_pos hcond]
    · rw [if_neg hcond, if_neg hcond]
  · intro hne
    rw [emplaceM, if_neg (by simp [hne]), if_pos rfl,
      show sorted (.Op .mul l r) =
        (sorted l && sorted r && decide (orderKey l < orderKey r)) from rfl]
    by_cases hcond : (sorted l && sorted r && decide (orderKey l < orderKey r)) = true
    · rw [if_pos hcond, if_pos hcond]
    · rw [if_neg hcond, if_neg hcond]
  · intro hne
    rw [emplaceM, if_neg (by simp [hne]), if_pos rfl,
      show sorted (.Op .sub l r) = (sorted l && sorted r) from rfl]
    by_cases hcond : (sorted l && sorted r) = true
    · rw [if_pos hcond, if_pos hcond]
    · rw [if_neg hcond, if_neg hcond]
  · intro hne
    rw [emplaceM, if_neg (by simp [hne]), if_pos rfl,
      show sorted (.Op .div l r) = (sorted l && sorted r) from rfl]
    by_cases hcond : (sorted l && sorted r) = true
    · rw [if_pos hcond, if_pos hcond]
    · rw [if_neg hcond, if_neg hcond]

theorem c4_dedup_amended_witness :
    evaluable (.Op .add .Open (.Lit 2)) = false ∧
    emplaceM (.Op .add .Open (.Lit 2)) 4 [9] [] (fun _ => 0) defaultBest memEmpty
      false true =
      .ok ((if sorted .Open && sorted (.Lit 2) then
        ([] : Queue) ++ [(⟨.Op .add .Open (.Lit 2), (0 : ℚ), [9]⟩ : Node)]
        else ([] : Queue)), defaultBest, memEmpty, []) :=
  ⟨by decide, (c4_dedup_amended .Open (.Lit 2) 4 [9] [] (fun _ => 0) defaultBest memEmpty
    false).1 (by decide)⟩

/-- C5 counterexample: filling the hole with the required value does not
always produce the target.  For the tree / 0 . and target 5, the sibling
is evaluable and required computes 0 / 5 = 0, but the filled tree / 0 0
raises DivisionByZero instead of evaluating to 5. -/
theorem c5_required_counterexample :
    size (.Op .div (.Lit 0) .Open) = 1 ∧
    evaluable (.Lit 0) = true ∧
    required (.Op .div (.Lit 0) .Open) 5 = .ok 0 ∧
    fillRequiredEval (.Op .div (.Lit 0) .Open) 5 = .error .divByZero := by
  refine ⟨by decide, by decide, by decide, by decide⟩

/-- C5 amended: on a tree with exactly one hole, filling the hole with
the required value evaluates exactly to the target provided the reqSafe
side conditions hold (all sibling evaluations succeed, Mul siblings are
nonzero, a Div with the hole on the right has nonzero sibling and
nonzero incoming sub-target, a Div with the hole on the left has nonzero
right sibling); and on a tree with zero holes whose evaluation succeeds,
required fails with RequiredOnLiteral. -/
theorem c5_required_amended :
    (∀ (e : Expr) (t : ℚ), size e = 1 → reqSafe e t = true →
      fillRequiredEval e t = .ok t) ∧
    (∀ (e : Expr) (t v : ℚ), size e = 0 → eval e = .ok v →
      required e t = .error .requiredLiteralNode) :=
  ⟨fillRequired_exact, fun e t v hs hv => required_zero_holes e hs t v hv⟩

theorem c5_required_amended_witness :
    size (.Op .add (.Lit 3) .Open) = 1 ∧
    reqSafe (.Op .add (.Lit 3) .Open) 10 = true ∧
    fillRequiredEval (.Op .add (.Lit 3) .Open) 10 = .ok 10 ∧
    size (.Lit 7) = 0 ∧ eval (.Lit 7) = .ok 7 ∧
    required (.Lit 7) 4 = .error .requiredLiteralNode :=
  ⟨by decide, by decide, c5_required_amended.1 (.Op .add (.Lit 3) .Open) 10 (by decide)
    (by decide), by decide, rfl, c5_required_amended.2 (.Lit 7) 4 7 (by decide) rfl⟩

/-- C6: subset use.  For every candidate returned by any of the three
strategies started from the bare Open root, the multiset of literal
values in its tree is a sub-multiset of the input numbers: every literal
is drawn from the input and no number is used more often than it occurs
there (with the set input, at most once); this covers in particular the
candidates spliced from the memo table. -/
theorem c6_subset_use :
    (∀ (fuel : Nat) (t : ℚ) (ns : List ℚ) (b : Best) (tr : List ℚ),
      dfsT fuel .Open t ns defaultBest = some (.ok (b, tr)) →
      lits b.expr ≤ (ns : Multiset ℚ)) ∧
    (∀ (fuel : Nat) (t : ℚ) (ns : List ℚ) (b : Best) (m : Mem) (tr : List ℚ), ns.Nodup →
      dfsMemT fuel .Open t ns defaultBest memEmpty = some (.ok (b, m, tr)) →
      lits b.expr ≤ (ns : Multiset ℚ)) ∧
    (∀ (fuel : Nat) (t : ℤ) (ns : List ℚ) (h : Expr → ℚ) (um uu : Bool) (b : Best)
      (tr : List ℚ), ns.Nodup →
      astarT fuel t ns h um uu = some (.ok (b, tr)) → lits b.expr ≤ (ns : Multiset ℚ)) := by
  refine ⟨?_, ?_, ?_⟩
  · intro fuel t ns b tr hres
    rcases dfsT_master fuel t (ns : Multiset ℚ) .Open ns defaultBest (by simp [lits])
      (by simp [defaultBest, lits]) consistentB_defaultBest with hnone | ⟨b2, tr2, heq, hl2, _⟩
    · have hnone2 : dfsT fuel .Open t ns defaultBest = none := hnone
      rw [hnone2] at hres
      cases hres
    · have heq2 : dfsT fuel .Open t ns defaultBest = some (.ok (b2, tr2)) := heq
      rw [heq2] at hres
      simp only [Option.some.injEq, Except.ok.injEq, Prod.mk.injEq] at hres
      exact hres.1 ▸ hl2
  · intro fuel t ns b m tr hnd hres
    rcases dfsMemT_master fuel t (ns : Multiset ℚ) (by simpa using hnd) .Open ns defaultBest
      memEmpty (by simp [lits]) (by simp [defaultBest, lits]) consistentB_defaultBest
      memInv_empty with hnone | ⟨b2, m2, tr2, heq, hl2, _, _⟩
    · have hnone2 : dfsMemT fuel .Open t ns defaultBest memEmpty = none := hnone
      rw [hnone2] at hres
      cases hres
    · have heq2 : dfsMemT fuel .Open t ns defaultBest memEmpty = some (.ok (b2, m2, tr2)) := heq
      rw [heq2] at hres
      simp only [Option.some.injEq, Except.ok.injEq, Prod.mk.injEq] at hres
      exact hres.1 ▸ hl2
  · intro fuel t ns h um uu b tr hnd hres
    rcases astarT_master fuel t ns h um uu hnd with hnone | ⟨b2, tr2, heq, hl2, _⟩
    · rw [hnone] at hres
      cases hres
    · rw [heq] at hres
      simp only [Option.some.injEq, Except.ok.injEq, Prod.mk.injEq] at hres
      exact hres.1 ▸ hl2

theorem c6_subset_use_witness :
    dfsT 3 .Open 25 [5] defaultBest = some (.ok (⟨.Lit 5, 5⟩, [5])) ∧
    lits (Best.mk (.Lit 5) 5).expr ≤ (([5] : List ℚ) : Multiset ℚ) :=
  ⟨by decide, c6_subset_use.1 3 25 [5] ⟨.Lit 5, 5⟩ [5] (by decide)⟩

/-- C7: DivisionByZero never aborts a run.  A candidate whose evaluation
raises DivisionByZero is constructed with value 0 and competes like any
other, and no run of any of the three strategies from the entry point
ever escapes with an exception: the division errors raised inside memo
insertion or required-value computation are caught and only skip that
insertion or probe. -/
theorem c7_div_by_zero_recoverable :
    (∀ e : Expr, eval e = .error .divByZero → mkBest e = .ok ⟨e, 0⟩) ∧
    (∀ (fuel : Nat) (t : ℚ) (ns : List ℚ) (er : Err),
      dfsT fuel .Open t ns defaultBest ≠ some (.error er)) ∧
    (∀ (fuel : Nat) (t : ℚ) (ns : List ℚ) (er : Err), ns.Nodup →
      dfsMemT fuel .Open t ns defaultBest memEmpty ≠ some (.error er)) ∧
    (∀ (fuel : Nat) (t : ℤ) (ns : List ℚ) (h : Expr → ℚ) (um uu : Bool) (er : Err),
      ns.Nodup → astarT fuel t ns h um uu ≠ some (.error er)) := by
  refine ⟨?_, ?_, ?_, ?_⟩
  · intro e h
    rw [mkBest, h]
  · intro fuel t ns er hcontra
    rcases dfsT_master fuel t (ns : Multiset ℚ) .Open ns defaultBest (by simp [lits])
      (by simp [defaultBest, lits]) consistentB_defaultBest with hnone | ⟨b2, tr2, heq, _, _⟩
    · have hnone2 : dfsT fuel .Open t ns defaultBest = none := hnone
      rw [hnone2] at hcontra
      cases hcontra
    · have heq2 : dfsT fuel .Open t ns defaultBest = some (.ok (b2, tr2)) := heq
      rw [heq2] at hcontra
      simp at hcontra
  · intro fuel t ns er hnd hcontra
    rcases dfsMemT_master fuel t (ns : Multiset ℚ) (by simpa using hnd) .Open ns defaultBest
      memEmpty (by simp [lits]) (by simp [defaultBest, lits]) consistentB_defaultBest
      memInv_empty with hnone | ⟨b2, m2, tr2, heq, _, _, _⟩
    · have hnone2 : dfsMemT fuel .Open t ns defaultBest memEmpty = none := hnone
      rw [hnone2] at hcontra
      cases hcontra
    · have heq2 : dfsMemT fuel .Open t ns defaultBest memEmpty = some (.ok (b2, m2, tr2)) := heq
      rw [heq2] at hcontra
      simp at hcontra
  · intro fuel t ns h um uu er hnd hcontra
    rcases astarT_master fuel t ns h um uu hnd with hnone | ⟨b2, tr2, heq, _, _⟩
    · rw [hnone] at hcontra
      cases hcontra
    · rw [heq] at hcontra
      simp at hcontra

theorem c7_div_by_zero_recoverable_witness :
    eval (.Op .div (.Lit 1) (.Lit 0)) = .error .divByZero ∧
    mkBest (.Op .div (.Lit 1) (.Lit 0)) = .ok ⟨.Op .div (.Lit 1) (.Lit 0), 0⟩ ∧
    ([4, 0] : List ℚ).Nodup ∧
    dfsMemT 8 .Open 3 [4, 0] defaultBest memEmpty ≠ some (.error .divByZero) :=
  ⟨by decide, c7_div_by_zero_recoverable.1 (.Op .div (.Lit 1) (.Lit 0)) (by decide),
    by decide, c7_div_by_zero_recoverable.2.2.1 8 3 [4, 0] .divByZero (by decide)⟩

/-- C8 counterexample: a candidate can be constructed and scored after
the running best is already exact.  With target 0 the entering default
best already satisfies best.value == target, yet dfs on the singleton
input 7 still constructs and scores the candidate of value 7 (the trace
records one Best construction) before returning. -/
theorem c8_early_exit_counterexample :
    defaultBest.value = (0 : ℚ) ∧
    dfsT 3 .Open 0 [7] defaultBest = some (.ok (defaultBest, [7])) ∧
    ([7] : List ℚ) ≠ [] :=
  ⟨rfl, by decide, by decide⟩

/-- C8 amended: once the running best is exact, astar constructs no
further candidate (its loop exits before popping anything); dfs, entered
with an exact best and an integer target, finishes only the already
started leftmost descent, constructing at most one further candidate,
and returns that same best. -/
theorem c8_early_exit_amended :
    (∀ (fuel : Nat) (t : ℤ) (h : Expr → ℚ) (um uu : Bool) (q : Queue) (best : Best)
      (mem : Mem), best.value = (t : ℚ) →
      astarLoop t h um uu (fuel + 1) q best mem = some (.ok (best, []))) ∧
    (∀ (fuel : Nat) (i : ℤ) (e : Expr) (ns : List ℚ) (best b : Best) (tr : List ℚ),
      best.value = (i : ℚ) → dfsT fuel e ((i : ℤ) : ℚ) ns best = some (.ok (b, tr)) →
      b = best ∧ tr.length ≤ 1) :=
  ⟨fun fuel t h um uu q best mem hbv => astarLoop_exact_entry fuel t h um uu q best mem hbv,
    fun fuel i e ns best b tr hbv hres => dfsT_exact_entry fuel i e ns best b tr hbv hres⟩

theorem c8_early_exit_amended_witness :
    (Best.mk (.Lit 3) 5).value = ((5 : ℤ) : ℚ) ∧
    astarLoop 5 (fun _ => 0) false false 1 [] ⟨.Lit 3, 5⟩ memEmpty =
      some (.ok (⟨.Lit 3, 5⟩, [])) ∧
    dfsT 1 .Open ((5 : ℤ) : ℚ) [] ⟨.Lit 3, 5⟩ = some (.ok (⟨.Lit 3, 5⟩, [])) ∧
    (Best.mk (.Lit 3) 5 = Best.mk (.Lit 3) 5 ∧ ([] : List ℚ).length ≤ 1) :=
  ⟨by norm_num, c8_early_exit_amended.1 0 5 (fun _ => 0) false false [] ⟨.Lit 3, 5⟩
    memEmpty (by norm_num), by decide,
    c8_early_exit_amended.2 1 5 .Open [] ⟨.Lit 3, 5⟩ ⟨.Lit 3, 5⟩ [] (by norm_num)
      (by decide)⟩

/-- C9 counterexample: evaluate_missing is not hole-neutral evaluation.
For the tree - . 5 (a subtraction with an open left side),
evaluate_missing drops the open side and returns 5, while evaluating
with the hole replaced by the neutral 0 gives 0 - 5 = -5. -/
theorem c9_evaluate_missing_counterexample :
    0 < size (.Op .sub .Open (.Lit 5)) ∧
    evaluateMissing (.Op .sub .Open (.Lit 5)) = 5 ∧
    specHoleNeutralEval (.Op .sub .Open (.Lit 5)) = .ok (-5) := by
  refine ⟨by decide, by decide, by decide⟩

/-- C9 amended: evaluate_missing equals the ordinary evaluation of the
pruned tree obtained by dropping the fully open side of every operator
node and collapsing bare holes, and operator nodes with literals on both
sides, to the neutral literal 0; it is not in general the evaluation
with holes replaced by 0, and a fully evaluable operator subtree with
literals on both sides contributes 0 rather than its own value. -/
theorem c9_evaluate_missing_amended (e : Expr) :
    eval (pruneMissing e) = .ok (evaluateMissing e) :=
  eval_pruneMissing e

/-- C10 counterexample: at target 0 the run does return the default
candidate, but not always without completing any expression: on the
singleton input 5 the first dfs child completes and scores the
expression 5 (one candidate in the trace) before the lucky stop
returns the default. -/
theorem c10_target_zero_counterexample :
    dfsT 3 .Open 0 [5] defaultBest = some (.ok (defaultBest, [5])) ∧
    ([5] : List ℚ) ≠ [] :=
  ⟨by decide, by decide⟩

/-- C10 amended: for target 0 and a nonempty numbers input every
strategy returns the initial default candidate: astar exits its loop
before expanding anything (no candidate constructed), and dfs and
dfs_mem return right after their first recursive child, which constructs
at most one candidate (exactly one on singleton inputs). -/
theorem c10_target_zero_amended :
    (∀ (fuel : Nat) (n : ℚ) (rest : List ℚ), ∃ tr : List ℚ,
      dfsT (fuel + 2) .Open 0 (n :: rest) defaultBest = some (.ok (defaultBest, tr)) ∧
      tr.length ≤ 1) ∧
    (∀ (fuel : Nat) (n : ℚ) (rest : List ℚ), ∃ (m : Mem) (tr : List ℚ),
      dfsMemT (fuel + 2) .Open 0 (n :: rest) defaultBest memEmpty =
        some (.ok (defaultBest, m, tr)) ∧ tr.length ≤ 1) ∧
    (∀ (fuel : Nat) (ns : List ℚ) (h : Expr → ℚ) (um uu : Bool),
      astarT (fuel + 1) 0 ns h um uu = some (.ok (defaultBest, []))) :=
  ⟨dfsT_target_zero, dfsMemT_target_zero,
    fun fuel ns h um uu =>
      astarLoop_exact_entry fuel 0 h um uu [⟨.Open, h .Open, ns⟩] defaultBest memEmpty
        (by simp [defaultBest])⟩

end Calcnum
